import Mathlib

/-!
Verification of the folly Baton single-handoff primitive
(src/third-party/folly/src/folly/synchronization/Baton.h).

The Baton is a two-thread object: one producer calls `post()` once, one
consumer calls one wait-family operation (`wait`, `try_wait_for`,
`try_wait_until`) once per lifetime.  We embed the C++ shallowly as a
small-step interleaving machine over the atomic `state_` word:

* `V` is the `State` enum (Baton.h lines 299-305).
* The producer program is `post()` (lines 148-183), cut at its atomic
  accesses: the initial acquire load, the INIT -> EARLY_DELIVERY CAS, the
  LATE_DELIVERY release store, and the futexWake call.
* The consumer program is `try_wait()` followed by `tryWaitSlow`
  (lines 198-206, 221-225, 241-276, 307-415), cut at its atomic accesses:
  the spin-phase `ready()` polls, the INIT -> WAITING CAS, the futexWait
  calls, the post-wake acquire load, and the TIMED_OUT store.
* The external collaborators (the spin helper of
  folly/synchronization/detail/Spin.h and the futex park facility of
  folly/detail/Futex.h and MemoryIdler.h) are not under src/; their
  outcomes (spin success / timeout / advance, park wake / spurious wake /
  timeout) are resolved by oracle actions `Act`, constrained exactly by the
  collaborator contracts of spec section 6 (a timeout outcome needs a
  non-maximal deadline; `spin_yield_until` yields only success or timeout).

Every atomic access records an event tagged with the memory order the
source requests, so the acquire/release pairing claims are statements
about the recorded trace.  A configuration also carries the non-atomic
`payload` flag standing for "everything the producer did before calling
post()" in the message-passing property.
-/

namespace Baton

/-- The `State` enum of Baton.h lines 299-305. -/
inductive V where
  | INIT
  | EARLY_DELIVERY
  | WAITING
  | LATE_DELIVERY
  | TIMED_OUT
  deriving DecidableEq, Repr

/-- The numeric values the source gives the enum (`INIT = 0`, ...,
`TIMED_OUT = 4`, Baton.h lines 299-305). -/
def V.toEnum : V → Nat
  | .INIT => 0
  | .EARLY_DELIVERY => 1
  | .WAITING => 2
  | .LATE_DELIVERY => 3
  | .TIMED_OUT => 4

/-- Memory orders appearing in Baton.h. -/
inductive MO where
  | relaxed
  | acquire
  | release
  deriving DecidableEq, Repr

/-- Events recorded at each atomic access and at the payload accesses.
`stP`/`stC` are producer/consumer stores to `state_` (a successful CAS is
recorded as a store with its success order), `ldC` is a consumer load of
`state_` (a failed CAS is recorded as a load with its failure order),
`wr`/`rdC` are the producer payload write and the consumer payload read,
`wakeP` is the producer's `futexWake(&state_, 1)` (line 182). -/
inductive Ev where
  | wr (b : Bool)
  | stP (mo : MO) (v : V)
  | stC (mo : MO) (v : V)
  | ldC (mo : MO) (v : V)
  | rdC (b : Bool)
  | wakeP
  deriving DecidableEq, Repr

/-- Producer program counter, cutting `post()` (lines 148-183) at its
atomic accesses.  `wr` is the payload write preceding the call; `nb` is
the non-blocking store of line 155; `ld` is the acquire load of line 161;
`cas` is the CAS of lines 165-170; `chk` is the TIMED_OUT test of
line 176; `stLate` is the release store of line 181; `wake` is the
futexWake of line 182. -/
inductive PPc where
  | wr
  | nb
  | ld
  | cas
  | chk
  | stLate
  | wake
  | done
  deriving DecidableEq, Repr

/-- Consumer program counter. `fast` is the `try_wait()` fast path
(lines 200, 245, 271 calling lines 221-225); `spin` is the
`spin_pause_until` phase (line 317); `yield` is the `spin_yield_until`
phase of the non-blocking mode (line 329); `cas` is the INIT -> WAITING
CAS (lines 359-365); `park` is a `futexWaitUntil` call (line 376);
`after` is the acquire re-load of line 405; `timedStore` is the point
between futex timeout and the TIMED_OUT store of line 381; `succR` is the
payload read the caller performs after a successful return; `succ` and
`failDone` are the two returns (true / false). -/
inductive CPc where
  | fast
  | spin
  | yield
  | cas
  | park
  | after
  | timedStore
  | succR
  | succ
  | failDone
  deriving DecidableEq, Repr

/-- Modelled from the spec: folly/synchronization/WaitOptions.h is not
under src/.  Spec section 6 describes the spin helper's bounded budget;
the options value is only passed through the wait entry points (and its
default is what the deprecated `timed_wait` supplies), so it is carried
as an inert record. -/
structure WaitOptions where
  spin_max_micros : Nat
  deriving DecidableEq, Repr

/-- Source `Baton::wait_options()` (line 74): the default options value. -/
def wait_options : WaitOptions := ⟨2⟩

/-- A configuration of the two-thread machine: the shared atomic
`state_`, the non-atomic payload flag, both program counters, the
producer's local `before` register (line 161), the consumer's pending
return value, the deadline shape (`dlMax` is true when the deadline is
`time_point::max()`, which is what `wait()` passes at line 204), the
`MayBlock` template parameter, the options value, and the event trace. -/
structure Cfg where
  mayBlock : Bool
  dlMax : Bool
  state : V
  payload : Bool
  ppc : PPc
  before : V
  cpc : CPc
  ret : Option Bool
  opt : WaitOptions
  trace : List Ev
  deriving DecidableEq, Repr

/-- Source `Baton::ready()` (lines 109-112): true iff `state_` is
EARLY_DELIVERY or LATE_DELIVERY. -/
def ready : V → Bool
  | .EARLY_DELIVERY => true
  | .LATE_DELIVERY => true
  | _ => false

/-- Source `Baton::try_wait()` (lines 221-225): true iff `state_` is
EARLY_DELIVERY. -/
def try_wait : V → Bool
  | .EARLY_DELIVERY => true
  | _ => false

/-- One producer step of `post()` (lines 148-183), by program counter:
the payload write, then for `MayBlock = false` the release store of
EARLY_DELIVERY (line 155), and for `MayBlock = true` the acquire load
(line 161), the INIT -> EARLY_DELIVERY CAS with release success order and
relaxed failure order (lines 165-170, a failure writes the observed value
into `before`), the TIMED_OUT no-op return (lines 176-178), the
LATE_DELIVERY release store (line 181) and the futexWake (line 182). -/
def pstep (c : Cfg) : Option Cfg :=
  match c.ppc with
  | PPc.wr =>
      some { c with payload := true,
                    ppc := if c.mayBlock then PPc.ld else PPc.nb,
                    trace := c.trace ++ [Ev.wr true] }
  | PPc.nb =>
      some { c with state := V.EARLY_DELIVERY, ppc := PPc.done,
                    trace := c.trace ++ [Ev.stP MO.release V.EARLY_DELIVERY] }
  | PPc.ld => some { c with before := c.state, ppc := PPc.cas }
  | PPc.cas =>
      if c.before = V.INIT then
        if c.state = V.INIT then
          some { c with state := V.EARLY_DELIVERY, ppc := PPc.done,
                        trace := c.trace ++ [Ev.stP MO.release V.EARLY_DELIVERY] }
        else some { c with before := c.state, ppc := PPc.chk }
      else some { c with ppc := PPc.chk }
  | PPc.chk =>
      if c.before = V.TIMED_OUT then some { c with ppc := PPc.done }
      else some { c with ppc := PPc.stLate }
  | PPc.stLate =>
      some { c with state := V.LATE_DELIVERY, ppc := PPc.wake,
                    trace := c.trace ++ [Ev.stP MO.release V.LATE_DELIVERY] }
  | PPc.wake => some { c with ppc := PPc.done, trace := c.trace ++ [Ev.wakeP] }
  | PPc.done => none

/-- The schedule/oracle alphabet.  `p` runs the producer's next step.
The consumer actions resolve both the scheduler and the external
collaborators: `spinTimeout`, `yieldTimeout` and `parkTimeout` are the
spin helper / park facility reporting that the deadline passed (only
possible when the deadline is not `time_point::max()`), `spinAdvance` is
`spin_result::advance`, and `parkWake` is `futexWaitUntil` returning for
any reason other than timeout (a matching wake, a spurious wake, or an
immediate return because `state_` differs from WAITING). -/
inductive Act where
  | p
  | fastStep
  | spinPoll
  | spinTimeout
  | spinAdvance
  | yieldPoll
  | yieldTimeout
  | casStep
  | parkTimeout
  | parkWake
  | afterLoad
  | timedStoreStep
  | readPayload
  deriving DecidableEq, Repr

/-- One interleaved step.  The consumer side embeds `try_wait()` and
`tryWaitSlow` (lines 307-415): the acquire fast check, the
`spin_pause_until` phase whose `advance` outcome falls to
`spin_yield_until` when `MayBlock` is false (lines 328-337) and to the
blocking CAS when it is true, the INIT -> WAITING CAS with relaxed
success order and acquire failure order (lines 359-373, a failure
returns true immediately), the park loop (lines 375-414) whose timeout
stores TIMED_OUT relaxed and returns false (lines 379-383) and whose
other returns re-load `state_` with acquire order and return true
exactly when it is LATE_DELIVERY (lines 405-413), and the caller's
payload read after a successful return. -/
def stepF (c : Cfg) : Act → Option Cfg
  | Act.p => pstep c
  | Act.fastStep =>
      if c.cpc = CPc.fast then
        some (if try_wait c.state then
                { c with cpc := CPc.succR, trace := c.trace ++ [Ev.ldC MO.acquire c.state] }
              else { c with cpc := CPc.spin, trace := c.trace ++ [Ev.ldC MO.acquire c.state] })
      else none
  | Act.spinPoll =>
      if c.cpc = CPc.spin then
        some (if ready c.state then
                { c with cpc := CPc.succR, trace := c.trace ++ [Ev.ldC MO.acquire c.state] }
              else { c with trace := c.trace ++ [Ev.ldC MO.acquire c.state] })
      else none
  | Act.spinTimeout =>
      if c.cpc = CPc.spin then
        if c.dlMax then none
        else some { c with cpc := CPc.failDone, ret := some false }
      else none
  | Act.spinAdvance =>
      if c.cpc = CPc.spin then
        some { c with cpc := if c.mayBlock then CPc.cas else CPc.yield }
      else none
  | Act.yieldPoll =>
      if c.cpc = CPc.yield then
        some (if ready c.state then
                { c with cpc := CPc.succR, trace := c.trace ++ [Ev.ldC MO.acquire c.state] }
              else { c with trace := c.trace ++ [Ev.ldC MO.acquire c.state] })
      else none
  | Act.yieldTimeout =>
      if c.cpc = CPc.yield then
        if c.dlMax then none
        else some { c with cpc := CPc.failDone, ret := some false }
      else none
  | Act.casStep =>
      if c.cpc = CPc.cas then
        if c.state = V.INIT then
          some { c with state := V.WAITING, cpc := CPc.park,
                        trace := c.trace ++ [Ev.stC MO.relaxed V.WAITING] }
        else
          some { c with cpc := CPc.succR, trace := c.trace ++ [Ev.ldC MO.acquire c.state] }
      else none
  | Act.parkTimeout =>
      if c.cpc = CPc.park then
        if c.dlMax then none else some { c with cpc := CPc.timedStore }
      else none
  | Act.parkWake =>
      if c.cpc = CPc.park then some { c with cpc := CPc.after } else none
  | Act.afterLoad =>
      if c.cpc = CPc.after then
        some (if c.state = V.LATE_DELIVERY then
                { c with cpc := CPc.succR, trace := c.trace ++ [Ev.ldC MO.acquire c.state] }
              else { c with cpc := CPc.park, trace := c.trace ++ [Ev.ldC MO.acquire c.state] })
      else none
  | Act.timedStoreStep =>
      if c.cpc = CPc.timedStore then
        some { c with state := V.TIMED_OUT, cpc := CPc.failDone, ret := some false,
                      trace := c.trace ++ [Ev.stC MO.relaxed V.TIMED_OUT] }
      else none
  | Act.readPayload =>
      if c.cpc = CPc.succR then
        some { c with cpc := CPc.succ, ret := some true,
                      trace := c.trace ++ [Ev.rdC c.payload] }
      else none

/-- Run a schedule from a configuration. -/
def run (c : Cfg) : List Act → Option Cfg
  | [] => some c
  | a :: as =>
      match stepF c a with
      | some c' => run c' as
      | none => none

/-- The configuration at the start of a lifetime: `state_` is INIT
(line 76), neither thread has moved, no payload written. -/
def initC (mb dlM : Bool) (opt : WaitOptions) : Cfg :=
  { mayBlock := mb, dlMax := dlM, state := V.INIT, payload := false,
    ppc := PPc.wr, before := V.INIT, cpc := CPc.fast, ret := none,
    opt := opt, trace := [] }

/-- Reachability from a given configuration. -/
def ReachFrom (c0 c : Cfg) : Prop := ∃ as, run c0 as = some c

/-- Reachability from the start of some lifetime, for either `MayBlock`
value, any deadline shape and any options. -/
def Reach (c : Cfg) : Prop :=
  ∃ mb dlM opt as, run (initC mb dlM opt) as = some c

/-- Source `Baton::wait(opt)` (lines 198-206): `try_wait` then the slow path
with `deadline = std::chrono::steady_clock::time_point::max()`
(line 204), so runs start with `dlMax = true`. -/
def waitRun (mb : Bool) (opt : WaitOptions) (as : List Act) : Option Cfg :=
  run (initC mb true opt) as

/-- Source `Baton::try_wait_for(timeout, opt)` (lines 241-251): `try_wait` then
the slow path with `deadline = steady_clock::now() + timeout`, never the
maximal time point. -/
def try_wait_for_run (mb : Bool) (opt : WaitOptions) (as : List Act) : Option Cfg :=
  run (initC mb false opt) as

/-- Source `Baton::try_wait_until(deadline, opt)` (lines 267-276): `try_wait`
then the slow path with the caller's deadline, which may or may not be
the maximal time point. -/
def try_wait_until_run (mb dlM : Bool) (opt : WaitOptions) (as : List Act) : Option Cfg :=
  run (initC mb dlM opt) as

/-- The deprecated `Baton::timed_wait(duration)` (lines 283-287):
`return try_wait_for(timeout);` with the options defaulted to
`wait_options()`. -/
def timed_wait_for_run (mb : Bool) (as : List Act) : Option Cfg :=
  try_wait_for_run mb wait_options as

/-- The deprecated `Baton::timed_wait(deadline)` (lines 292-296):
`return try_wait_until(deadline);` with the options defaulted to
`wait_options()`. -/
def timed_wait_until_run (mb dlM : Bool) (as : List Act) : Option Cfg :=
  try_wait_until_run mb dlM wait_options as

/-- The four state-machine edges claimed by the spec (section 3):
INIT -> EARLY_DELIVERY, INIT -> WAITING, WAITING -> LATE_DELIVERY,
WAITING -> TIMED_OUT. -/
def specEdge : V → V → Bool
  | V.INIT, V.EARLY_DELIVERY => true
  | V.INIT, V.WAITING => true
  | V.WAITING, V.LATE_DELIVERY => true
  | V.WAITING, V.TIMED_OUT => true
  | _, _ => false

/-- The trace contains a producer release store of `v` preceded by the
payload write: the producer published `v` after writing the payload. -/
def StIdx (tr : List Ev) (v : V) : Prop :=
  ∃ l1 l2, tr = l1 ++ Ev.stP MO.release v :: l2 ∧ Ev.wr true ∈ l1

/-- The release/acquire pairing: some value `v` of `state_` was stored by
the producer with release order after the payload write, and later loaded
by the consumer with acquire order.  This is the synchronizes-with edge
that makes the payload write happen-before the consumer's payload read. -/
def Pairing (tr : List Ev) : Prop :=
  ∃ v l1 l2 l3,
    tr = l1 ++ Ev.stP MO.release v :: (l2 ++ Ev.ldC MO.acquire v :: l3) ∧
    Ev.wr true ∈ l1

/-- The reachability invariant of the two-thread machine: how the shared
`state_`, the two program counters, the producer's `before` register, the
pending return value and the recorded trace constrain each other in every
configuration reachable within one lifetime (one post, one wait-family
call, no reset). -/
structure Inv (c : Cfg) : Prop where
  pay : c.payload = true ↔ c.ppc ≠ PPc.wr
  wrAt : c.payload = true → Ev.wr true ∈ c.trace
  retE : c.ret = if c.cpc = CPc.succ then some true
                 else if c.cpc = CPc.failDone then some false else none
  nb : c.mayBlock = false →
      (c.ppc = PPc.wr ∨ c.ppc = PPc.nb ∨ c.ppc = PPc.done) ∧
      (c.cpc = CPc.fast ∨ c.cpc = CPc.spin ∨ c.cpc = CPc.yield ∨
        c.cpc = CPc.succR ∨ c.cpc = CPc.succ ∨ c.cpc = CPc.failDone) ∧
      (c.state = V.INIT ∨ c.state = V.EARLY_DELIVERY) ∧
      (∀ m v, Ev.stC m v ∉ c.trace) ∧ Ev.wakeP ∉ c.trace
  mb : c.mayBlock = true → c.ppc ≠ PPc.nb ∧ c.cpc ≠ CPc.yield
  pre : c.cpc = CPc.fast ∨ c.cpc = CPc.spin ∨ c.cpc = CPc.yield ∨ c.cpc = CPc.cas →
      (c.state = V.INIT ∨ c.state = V.EARLY_DELIVERY) ∧ ∀ m v, Ev.stC m v ∉ c.trace
  park : c.cpc = CPc.park ∨ c.cpc = CPc.after ∨ c.cpc = CPc.timedStore →
      c.state = V.WAITING ∨ c.state = V.LATE_DELIVERY
  pcas : c.ppc = PPc.cas →
      c.before = V.INIT ∨
      (c.before = V.WAITING ∧ (c.state = V.WAITING ∨ c.state = V.TIMED_OUT)) ∨
      (c.before = V.TIMED_OUT ∧ (c.state = V.TIMED_OUT ∨ c.state = V.LATE_DELIVERY))
  pchk : c.ppc = PPc.chk →
      (c.before = V.WAITING ∧ (c.state = V.WAITING ∨ c.state = V.TIMED_OUT)) ∨
      (c.before = V.TIMED_OUT ∧ (c.state = V.TIMED_OUT ∨ c.state = V.LATE_DELIVERY))
  noSt : c.ppc = PPc.wr ∨ c.ppc = PPc.nb ∨ c.ppc = PPc.ld ∨ c.ppc = PPc.cas ∨
      c.ppc = PPc.chk ∨ c.ppc = PPc.stLate →
      c.state ≠ V.EARLY_DELIVERY ∧ c.state ≠ V.LATE_DELIVERY
  plate : c.ppc = PPc.stLate → c.state = V.WAITING ∨ c.state = V.TIMED_OUT
  pwakeS : c.ppc = PPc.wake → c.state = V.LATE_DELIVERY ∨ c.state = V.TIMED_OUT
  pdone : c.ppc = PPc.done →
      c.state = V.EARLY_DELIVERY ∨ c.state = V.LATE_DELIVERY ∨ c.state = V.TIMED_OUT
  wakeT : Ev.wakeP ∈ c.trace →
      c.ppc = PPc.done ∧ (c.state = V.LATE_DELIVERY ∨ c.state = V.TIMED_OUT)
  dlm : c.dlMax = true → c.cpc ≠ CPc.timedStore ∧ c.cpc ≠ CPc.failDone ∧
      c.state ≠ V.TIMED_OUT ∧ Ev.stC MO.relaxed V.TIMED_OUT ∉ c.trace
  stIdxI : c.state = V.EARLY_DELIVERY ∨ c.state = V.LATE_DELIVERY →
      c.payload = true ∧ StIdx c.trace c.state
  succP : c.cpc = CPc.succR ∨ c.cpc = CPc.succ → c.payload = true ∧ Pairing c.trace
  succRd : c.cpc = CPc.succ → Ev.rdC true ∈ c.trace

/-- The frame invariant after a spin-phase timeout return: the consumer is
parked at the failure return forever, the producer can only run the
INIT -> EARLY_DELIVERY fast path, and neither WAITING, LATE_DELIVERY, a
consumer store, nor a futexWake can ever appear. -/
def Kinv (c : Cfg) : Prop :=
  c.cpc = CPc.failDone ∧ c.ret = some false ∧
  ((c.ppc = PPc.wr ∨ c.ppc = PPc.nb ∨ c.ppc = PPc.ld) → c.state = V.INIT) ∧
  (c.ppc = PPc.cas → c.state = V.INIT ∧ c.before = V.INIT) ∧
  (c.ppc = PPc.done → c.state = V.INIT ∨ c.state = V.EARLY_DELIVERY) ∧
  c.ppc ≠ PPc.chk ∧ c.ppc ≠ PPc.stLate ∧ c.ppc ≠ PPc.wake ∧
  Ev.wakeP ∉ c.trace ∧ ∀ m v, Ev.stC m v ∉ c.trace


/-! Concrete schedules and configurations used by the per-claim witnesses and counterexamples below. -/

def c1sched : List Act := [Act.p, Act.p, Act.p, Act.fastStep, Act.readPayload]

def c1cfg : Cfg :=
  { mayBlock := true, dlMax := true, state := V.EARLY_DELIVERY, payload := true,
    ppc := PPc.done, before := V.INIT, cpc := CPc.succ, ret := some true,
    opt := wait_options,
    trace := [Ev.wr true, Ev.stP MO.release V.EARLY_DELIVERY,
              Ev.ldC MO.acquire V.EARLY_DELIVERY, Ev.rdC true] }

def c2schedA : List Act :=
  [Act.fastStep, Act.spinAdvance, Act.casStep, Act.p, Act.p,
   Act.parkTimeout, Act.timedStoreStep, Act.p, Act.p]

def c2amA : Cfg := initC true false wait_options

def c2amB : Cfg :=
  { mayBlock := true, dlMax := false, state := V.INIT, payload := false,
    ppc := PPc.wr, before := V.INIT, cpc := CPc.spin, ret := none,
    opt := wait_options, trace := [Ev.ldC MO.acquire V.INIT] }

def c3cfg : Cfg :=
  { mayBlock := true, dlMax := false, state := V.TIMED_OUT, payload := true,
    ppc := PPc.chk, before := V.TIMED_OUT, cpc := CPc.failDone, ret := some false,
    opt := wait_options, trace := [] }

def c4cfg : Cfg :=
  { mayBlock := false, dlMax := false, state := V.INIT, payload := true,
    ppc := PPc.nb, before := V.INIT, cpc := CPc.fast, ret := none,
    opt := wait_options, trace := [Ev.wr true] }

def c5sched : List Act := [Act.fastStep, Act.spinAdvance, Act.casStep]

def c5cfg : Cfg :=
  { mayBlock := true, dlMax := false, state := V.WAITING, payload := false,
    ppc := PPc.wr, before := V.INIT, cpc := CPc.park, ret := none, opt := wait_options,
    trace := [Ev.ldC MO.acquire V.INIT, Ev.stC MO.relaxed V.WAITING] }

def c6sched : List Act := [Act.fastStep, Act.spinAdvance, Act.p, Act.p, Act.p]

def c6cfg : Cfg :=
  { mayBlock := true, dlMax := false, state := V.EARLY_DELIVERY, payload := true,
    ppc := PPc.done, before := V.INIT, cpc := CPc.cas, ret := none, opt := wait_options,
    trace := [Ev.ldC MO.acquire V.INIT, Ev.wr true, Ev.stP MO.release V.EARLY_DELIVERY] }

def c7cfg : Cfg :=
  { mayBlock := true, dlMax := false, state := V.INIT, payload := false,
    ppc := PPc.wr, before := V.INIT, cpc := CPc.spin, ret := none,
    opt := wait_options, trace := [Ev.ldC MO.acquire V.INIT] }

def c8sched : List Act :=
  [Act.fastStep, Act.spinAdvance, Act.casStep, Act.parkTimeout, Act.timedStoreStep,
   Act.p, Act.p, Act.p, Act.p]

theorem stIdx_append {tr : List Ev} {v : V} (h : StIdx tr v) (l : List Ev) :
    StIdx (tr ++ l) v := by
  obtain ⟨l1, l2, rfl, hw⟩ := h
  exact ⟨l1, l2 ++ l, by simp, hw⟩

theorem stIdx_store {tr : List Ev} (v : V) (hw : Ev.wr true ∈ tr) :
    StIdx (tr ++ [Ev.stP MO.release v]) v :=
  ⟨tr, [], rfl, hw⟩

theorem pairing_append {tr : List Ev} (h : Pairing tr) (l : List Ev) :
    Pairing (tr ++ l) := by
  obtain ⟨v, l1, l2, l3, rfl, hw⟩ := h
  exact ⟨v, l1, l2, l3 ++ l, by simp, hw⟩

theorem pairing_of_stIdx {tr : List Ev} {v : V} (h : StIdx tr v) :
    Pairing (tr ++ [Ev.ldC MO.acquire v]) := by
  obtain ⟨l1, l2, rfl, hw⟩ := h
  exact ⟨v, l1, l2, [], by simp, hw⟩

theorem notMem_append {e : Ev} {tr l : List Ev} (h1 : e ∉ tr) (h2 : e ∉ l) :
    e ∉ tr ++ l := by
  intro hm
  rcases List.mem_append.mp hm with h | h
  · exact h1 h
  · exact h2 h

/-- The invariant holds at the start of a lifetime. -/
theorem inv_init (mb dlM : Bool) (opt : WaitOptions) : Inv (initC mb dlM opt) := by
  constructor <;> simp [initC, StIdx, Pairing]


theorem try_wait_eq {s : V} (h : try_wait s = true) : s = V.EARLY_DELIVERY := by
  cases s <;> simp [try_wait] at h ⊢

theorem ready_eq {s : V} (h : ready s = true) :
    s = V.EARLY_DELIVERY ∨ s = V.LATE_DELIVERY := by
  cases s <;> simp [ready] at h ⊢

theorem inv_pstep {c c' : Cfg} (hI : Inv c) (h : pstep c = some c') : Inv c' := by
  obtain ⟨pay, wrAt, retE, nb, mb, pre, park, pcas, pchk, noSt, plate, pwakeS, pdone,
    wakeT, dlm, stIdxI, succP, succRd⟩ := hI
  simp only [pstep] at h
  split at h
  -- payload write, pc wr
  case _ hp =>
    injection h with h
    subst h
    refine ⟨?_, ?_, ?_, ?_, ?_, ?_, ?_, ?_, ?_, ?_, ?_, ?_, ?_, ?_, ?_, ?_, ?_, ?_⟩
    · cases hm : c.mayBlock <;> simp [hm]
    · intro _; simp
    · exact retE
    · intro hmb
      have hmb' : c.mayBlock = false := hmb
      obtain ⟨-, h2, h3, h4, h5⟩ := nb hmb'
      exact ⟨by simp [hmb'], h2, h3, fun m v => notMem_append (h4 m v) (by simp),
        notMem_append h5 (by simp)⟩
    · intro hmb
      have hmb' : c.mayBlock = true := hmb
      exact ⟨by simp [hmb'], (mb hmb').2⟩
    · intro hx
      obtain ⟨s1, s2⟩ := pre hx
      exact ⟨s1, fun m v => notMem_append (s2 m v) (by simp)⟩
    · exact park
    · intro hx
      have hx' : (if c.mayBlock = true then PPc.ld else PPc.nb) = PPc.cas := hx
      cases hm : c.mayBlock <;> rw [hm] at hx' <;> simp at hx'
    · intro hx
      have hx' : (if c.mayBlock = true then PPc.ld else PPc.nb) = PPc.chk := hx
      cases hm : c.mayBlock <;> rw [hm] at hx' <;> simp at hx'
    · intro _
      exact noSt (Or.inl hp)
    · intro hx
      have hx' : (if c.mayBlock = true then PPc.ld else PPc.nb) = PPc.stLate := hx
      cases hm : c.mayBlock <;> rw [hm] at hx' <;> simp at hx'
    · intro hx
      have hx' : (if c.mayBlock = true then PPc.ld else PPc.nb) = PPc.wake := hx
      cases hm : c.mayBlock <;> rw [hm] at hx' <;> simp at hx'
    · intro hx
      have hx' : (if c.mayBlock = true then PPc.ld else PPc.nb) = PPc.done := hx
      cases hm : c.mayBlock <;> rw [hm] at hx' <;> simp at hx'
    · intro hx
      have hx' : Ev.wakeP ∈ c.trace ++ [Ev.wr true] := hx
      rcases List.mem_append.mp hx' with h' | h'
      · have hd := (wakeT h').1
        rw [hp] at hd
        exact PPc.noConfusion hd
      · simp at h'
    · intro hd
      obtain ⟨d1, d2, d3, d4⟩ := dlm hd
      exact ⟨d1, d2, d3, notMem_append d4 (by simp)⟩
    · intro hx
      obtain ⟨n1, n2⟩ := noSt (Or.inl hp)
      rcases hx with hx | hx
      · exact absurd hx n1
      · exact absurd hx n2
    · intro hx
      obtain ⟨-, p2⟩ := succP hx
      exact ⟨rfl, pairing_append p2 _⟩
    · intro hx
      exact List.mem_append.mpr (Or.inl (succRd hx))
  -- non-blocking store of EARLY_DELIVERY, pc nb
  case _ hp =>
    injection h with h
    subst h
    have hmbF : c.mayBlock = false := by
      cases hm : c.mayBlock
      · rfl
      · exact absurd hp (mb hm).1
    have hpay : c.payload = true := pay.mpr (by rw [hp]; simp)
    refine ⟨?_, ?_, ?_, ?_, ?_, ?_, ?_, ?_, ?_, ?_, ?_, ?_, ?_, ?_, ?_, ?_, ?_, ?_⟩
    · simp [hpay]
    · intro _
      exact List.mem_append.mpr (Or.inl (wrAt hpay))
    · exact retE
    · intro hmb
      have hmb' : c.mayBlock = false := hmb
      obtain ⟨-, h2, -, h4, h5⟩ := nb hmb'
      exact ⟨by simp, h2, by simp, fun m v => notMem_append (h4 m v) (by simp),
        notMem_append h5 (by simp)⟩
    · intro hmb
      have hmb' : c.mayBlock = true := hmb
      rw [hmb'] at hmbF
      exact Bool.noConfusion hmbF
    · intro hx
      obtain ⟨-, s2⟩ := pre hx
      exact ⟨by simp, fun m v => notMem_append (s2 m v) (by simp)⟩
    · intro hx
      have hx' : c.cpc = CPc.park ∨ c.cpc = CPc.after ∨ c.cpc = CPc.timedStore := hx
      rcases (nb hmbF).2.1 with h' | h' | h' | h' | h' | h' <;>
        rcases hx' with hx' | hx' | hx' <;> rw [h'] at hx' <;> exact CPc.noConfusion hx'
    · intro hx; simp at hx
    · intro hx; simp at hx
    · intro hx; simp at hx
    · intro hx; simp at hx
    · intro hx; simp at hx
    · intro _; simp
    · intro hx
      have hx' : Ev.wakeP ∈ c.trace ++ [Ev.stP MO.release V.EARLY_DELIVERY] := hx
      rcases List.mem_append.mp hx' with h' | h'
      · exact absurd h' ((nb hmbF).2.2.2.2)
      · simp at h'
    · intro hd
      obtain ⟨d1, d2, d3, d4⟩ := dlm hd
      exact ⟨d1, d2, by simp, notMem_append d4 (by simp)⟩
    · intro _
      exact ⟨hpay, stIdx_store _ (wrAt hpay)⟩
    · intro hx
      obtain ⟨-, p2⟩ := succP hx
      exact ⟨hpay, pairing_append p2 _⟩
    · intro hx
      exact List.mem_append.mpr (Or.inl (succRd hx))
  -- acquire load of state_, pc ld
  case _ hp =>
    injection h with h
    subst h
    have hpay : c.payload = true := pay.mpr (by rw [hp]; simp)
    refine ⟨?_, ?_, ?_, ?_, ?_, ?_, ?_, ?_, ?_, ?_, ?_, ?_, ?_, ?_, ?_, ?_, ?_, ?_⟩
    · simp [hpay]
    · intro _
      exact wrAt hpay
    · exact retE
    · intro hmb
      have hmb' : c.mayBlock = false := hmb
      rcases (nb hmb').1 with h' | h' | h' <;> rw [hp] at h' <;> exact PPc.noConfusion h'
    · intro hmb
      have hmb' : c.mayBlock = true := hmb
      exact ⟨by simp, (mb hmb').2⟩
    · exact pre
    · exact park
    · intro _
      obtain ⟨n1, n2⟩ := noSt (Or.inr (Or.inr (Or.inl hp)))
      show c.state = V.INIT ∨
        (c.state = V.WAITING ∧ (c.state = V.WAITING ∨ c.state = V.TIMED_OUT)) ∨
        (c.state = V.TIMED_OUT ∧ (c.state = V.TIMED_OUT ∨ c.state = V.LATE_DELIVERY))
      cases hs : c.state
      · exact Or.inl rfl
      · exact absurd hs n1
      · exact Or.inr (Or.inl ⟨rfl, Or.inl rfl⟩)
      · exact absurd hs n2
      · exact Or.inr (Or.inr ⟨rfl, Or.inl rfl⟩)
    · intro hx
      have hx' : PPc.cas = PPc.chk := hx
      exact PPc.noConfusion hx'
    · intro _
      exact noSt (Or.inr (Or.inr (Or.inl hp)))
    · intro hx
      have hx' : PPc.cas = PPc.stLate := hx
      exact PPc.noConfusion hx'
    · intro hx
      have hx' : PPc.cas = PPc.wake := hx
      exact PPc.noConfusion hx'
    · intro hx
      have hx' : PPc.cas = PPc.done := hx
      exact PPc.noConfusion hx'
    · intro hx
      have hd := (wakeT hx).1
      rw [hp] at hd
      exact PPc.noConfusion hd
    · exact dlm
    · exact stIdxI
    · exact succP
    · exact succRd
  -- CAS INIT -> EARLY_DELIVERY, pc cas
  case _ hp =>
    have hpay : c.payload = true := pay.mpr (by rw [hp]; simp)
    split at h
    case _ hb =>
      split at h
      -- CAS success
      case _ hs =>
        injection h with h
        subst h
        refine ⟨?_, ?_, ?_, ?_, ?_, ?_, ?_, ?_, ?_, ?_, ?_, ?_, ?_, ?_, ?_, ?_, ?_, ?_⟩
        · simp [hpay]
        · intro _
          exact List.mem_append.mpr (Or.inl (wrAt hpay))
        · exact retE
        · intro hmb
          have hmb' : c.mayBlock = false := hmb
          rcases (nb hmb').1 with h' | h' | h' <;> rw [hp] at h' <;> exact PPc.noConfusion h'
        · intro hmb
          have hmb' : c.mayBlock = true := hmb
          exact ⟨by simp, (mb hmb').2⟩
        · intro hx
          obtain ⟨-, s2⟩ := pre hx
          exact ⟨Or.inr rfl, fun m v => notMem_append (s2 m v) (by simp)⟩
        · intro hx
          rcases park hx with h' | h' <;> rw [hs] at h' <;> exact V.noConfusion h'
        · intro hx; simp at hx
        · intro hx; simp at hx
        · intro hx; simp at hx
        · intro hx; simp at hx
        · intro hx; simp at hx
        · intro _
          exact Or.inl rfl
        · intro hx
          have hx' : Ev.wakeP ∈ c.trace ++ [Ev.stP MO.release V.EARLY_DELIVERY] := hx
          rcases List.mem_append.mp hx' with h' | h'
          · have hd := (wakeT h').1
            rw [hp] at hd
            exact PPc.noConfusion hd
          · simp at h'
        · intro hd
          obtain ⟨d1, d2, d3, d4⟩ := dlm hd
          exact ⟨d1, d2, by simp, notMem_append d4 (by simp)⟩
        · intro _
          exact ⟨hpay, stIdx_store _ (wrAt hpay)⟩
        · intro hx
          obtain ⟨-, p2⟩ := succP hx
          exact ⟨hpay, pairing_append p2 _⟩
        · intro hx
          exact List.mem_append.mpr (Or.inl (succRd hx))
      -- CAS failure: before := observed state
      case _ hs =>
        injection h with h
        subst h
        refine ⟨?_, ?_, ?_, ?_, ?_, ?_, ?_, ?_, ?_, ?_, ?_, ?_, ?_, ?_, ?_, ?_, ?_, ?_⟩
        · simp [hpay]
        · intro _
          exact wrAt hpay
        · exact retE
        · intro hmb
          have hmb' : c.mayBlock = false := hmb
          rcases (nb hmb').1 with h' | h' | h' <;> rw [hp] at h' <;> exact PPc.noConfusion h'
        · intro hmb
          have hmb' : c.mayBlock = true := hmb
          exact ⟨by simp, (mb hmb').2⟩
        · exact pre
        · exact park
        · intro hx
          have hx' : PPc.chk = PPc.cas := hx
          exact PPc.noConfusion hx'
        · intro _
          obtain ⟨n1, n2⟩ := noSt (Or.inr (Or.inr (Or.inr (Or.inl hp))))
          show (c.state = V.WAITING ∧ (c.state = V.WAITING ∨ c.state = V.TIMED_OUT)) ∨
            (c.state = V.TIMED_OUT ∧ (c.state = V.TIMED_OUT ∨ c.state = V.LATE_DELIVERY))
          cases hst : c.state
          · exact absurd hst hs
          · exact absurd hst n1
          · exact Or.inl ⟨rfl, Or.inl rfl⟩
          · exact absurd hst n2
          · exact Or.inr ⟨rfl, Or.inl rfl⟩
        · intro _
          exact noSt (Or.inr (Or.inr (Or.inr (Or.inl hp))))
        · intro hx
          have hx' : PPc.chk = PPc.stLate := hx
          exact PPc.noConfusion hx'
        · intro hx
          have hx' : PPc.chk = PPc.wake := hx
          exact PPc.noConfusion hx'
        · intro hx
          have hx' : PPc.chk = PPc.done := hx
          exact PPc.noConfusion hx'
        · intro hx
          have hd := (wakeT hx).1
          rw [hp] at hd
          exact PPc.noConfusion hd
        · exact dlm
        · exact stIdxI
        · exact succP
        · exact succRd
    -- CAS skipped: before was not INIT
    case _ hb =>
      injection h with h
      subst h
      refine ⟨?_, ?_, ?_, ?_, ?_, ?_, ?_, ?_, ?_, ?_, ?_, ?_, ?_, ?_, ?_, ?_, ?_, ?_⟩
      · simp [hpay]
      · intro _
        exact wrAt hpay
      · exact retE
      · intro hmb
        have hmb' : c.mayBlock = false := hmb
        rcases (nb hmb').1 with h' | h' | h' <;> rw [hp] at h' <;> exact PPc.noConfusion h'
      · intro hmb
        have hmb' : c.mayBlock = true := hmb
        exact ⟨by simp, (mb hmb').2⟩
      · exact pre
      · exact park
      · intro hx
        have hx' : PPc.chk = PPc.cas := hx
        exact PPc.noConfusion hx'
      · intro _
        rcases pcas hp with h' | h' | h'
        · exact absurd h' hb
        · exact Or.inl h'
        · exact Or.inr h'
      · intro _
        exact noSt (Or.inr (Or.inr (Or.inr (Or.inl hp))))
      · intro hx
        have hx' : PPc.chk = PPc.stLate := hx
        exact PPc.noConfusion hx'
      · intro hx
        have hx' : PPc.chk = PPc.wake := hx
        exact PPc.noConfusion hx'
      · intro hx
        have hx' : PPc.chk = PPc.done := hx
        exact PPc.noConfusion hx'
      · intro hx
        have hd := (wakeT hx).1
        rw [hp] at hd
        exact PPc.noConfusion hd
      · exact dlm
      · exact stIdxI
      · exact succP
      · exact succRd
  -- TIMED_OUT check, pc chk
  case _ hp =>
    have hpay : c.payload = true := pay.mpr (by rw [hp]; simp)
    split at h
    -- before = TIMED_OUT: silent no-op return
    case _ hb =>
      injection h with h
      subst h
      refine ⟨?_, ?_, ?_, ?_, ?_, ?_, ?_, ?_, ?_, ?_, ?_, ?_, ?_, ?_, ?_, ?_, ?_, ?_⟩
      · simp [hpay]
      · intro _
        exact wrAt hpay
      · exact retE
      · intro hmb
        have hmb' : c.mayBlock = false := hmb
        rcases (nb hmb').1 with h' | h' | h' <;> rw [hp] at h' <;> exact PPc.noConfusion h'
      · intro hmb
        have hmb' : c.mayBlock = true := hmb
        exact ⟨by simp, (mb hmb').2⟩
      · exact pre
      · exact park
      · intro hx
        have hx' : PPc.done = PPc.cas := hx
        exact PPc.noConfusion hx'
      · intro hx
        have hx' : PPc.done = PPc.chk := hx
        exact PPc.noConfusion hx'
      · intro hx
        have hx' : PPc.done = PPc.wr ∨ PPc.done = PPc.nb ∨ PPc.done = PPc.ld ∨
          PPc.done = PPc.cas ∨ PPc.done = PPc.chk ∨ PPc.done = PPc.stLate := hx
        rcases hx' with h' | h' | h' | h' | h' | h' <;> exact PPc.noConfusion h'
      · intro hx
        have hx' : PPc.done = PPc.stLate := hx
        exact PPc.noConfusion hx'
      · intro hx
        have hx' : PPc.done = PPc.wake := hx
        exact PPc.noConfusion hx'
      · intro _
        rcases pchk hp with h' | h'
        · rw [hb] at h'
          exact absurd h'.1 (by simp)
        · rcases h'.2 with h'' | h''
          · exact Or.inr (Or.inr h'')
          · exact Or.inr (Or.inl h'')
      · intro hx
        exact ⟨rfl, (wakeT hx).2⟩
      · exact dlm
      · exact stIdxI
      · exact succP
      · exact succRd
    -- before = WAITING: fall through to the late store
    case _ hb =>
      injection h with h
      subst h
      have hbw : c.before = V.WAITING ∧ (c.state = V.WAITING ∨ c.state = V.TIMED_OUT) := by
        rcases pchk hp with h' | h'
        · exact h'
        · exact absurd h'.1 hb
      refine ⟨?_, ?_, ?_, ?_, ?_, ?_, ?_, ?_, ?_, ?_, ?_, ?_, ?_, ?_, ?_, ?_, ?_, ?_⟩
      · simp [hpay]
      · intro _
        exact wrAt hpay
      · exact retE
      · intro hmb
        have hmb' : c.mayBlock = false := hmb
        rcases (nb hmb').1 with h' | h' | h' <;> rw [hp] at h' <;> exact PPc.noConfusion h'
      · intro hmb
        have hmb' : c.mayBlock = true := hmb
        exact ⟨by simp, (mb hmb').2⟩
      · intro hx
        rcases hbw.2 with h' | h' <;> rcases (pre hx).1 with s' | s' <;>
          rw [h'] at s' <;> exact V.noConfusion s'
      · exact park
      · intro hx
        have hx' : PPc.stLate = PPc.cas := hx
        exact PPc.noConfusion hx'
      · intro hx
        have hx' : PPc.stLate = PPc.chk := hx
        exact PPc.noConfusion hx'
      · intro _
        exact noSt (Or.inr (Or.inr (Or.inr (Or.inr (Or.inl hp)))))
      · intro _
        exact hbw.2
      · intro hx
        have hx' : PPc.stLate = PPc.wake := hx
        exact PPc.noConfusion hx'
      · intro hx
        have hx' : PPc.stLate = PPc.done := hx
        exact PPc.noConfusion hx'
      · intro hx
        have hd := (wakeT hx).1
        rw [hp] at hd
        exact PPc.noConfusion hd
      · exact dlm
      · exact stIdxI
      · exact succP
      · exact succRd
  -- release store of LATE_DELIVERY, pc stLate
  case _ hp =>
    injection h with h
    subst h
    have hpay : c.payload = true := pay.mpr (by rw [hp]; simp)
    refine ⟨?_, ?_, ?_, ?_, ?_, ?_, ?_, ?_, ?_, ?_, ?_, ?_, ?_, ?_, ?_, ?_, ?_, ?_⟩
    · simp [hpay]
    · intro _
      exact List.mem_append.mpr (Or.inl (wrAt hpay))
    · exact retE
    · intro hmb
      have hmb' : c.mayBlock = false := hmb
      rcases (nb hmb').1 with h' | h' | h' <;> rw [hp] at h' <;> exact PPc.noConfusion h'
    · intro hmb
      have hmb' : c.mayBlock = true := hmb
      exact ⟨by simp, (mb hmb').2⟩
    · intro hx
      rcases plate hp with h' | h' <;> rcases (pre hx).1 with s' | s' <;>
        rw [h'] at s' <;> exact V.noConfusion s'
    · intro _
      exact Or.inr rfl
    · intro hx
      have hx' : PPc.wake = PPc.cas := hx
      exact PPc.noConfusion hx'
    · intro hx
      have hx' : PPc.wake = PPc.chk := hx
      exact PPc.noConfusion hx'
    · intro hx
      have hx' : PPc.wake = PPc.wr ∨ PPc.wake = PPc.nb ∨ PPc.wake = PPc.ld ∨
        PPc.wake = PPc.cas ∨ PPc.wake = PPc.chk ∨ PPc.wake = PPc.stLate := hx
      rcases hx' with h' | h' | h' | h' | h' | h' <;> exact PPc.noConfusion h'
    · intro hx
      have hx' : PPc.wake = PPc.stLate := hx
      exact PPc.noConfusion hx'
    · intro _
      exact Or.inl rfl
    · intro hx
      have hx' : PPc.wake = PPc.done := hx
      exact PPc.noConfusion hx'
    · intro hx
      have hx' : Ev.wakeP ∈ c.trace ++ [Ev.stP MO.release V.LATE_DELIVERY] := hx
      rcases List.mem_append.mp hx' with h' | h'
      · have hd := (wakeT h').1
        rw [hp] at hd
        exact PPc.noConfusion hd
      · simp at h'
    · intro hd
      obtain ⟨d1, d2, d3, d4⟩ := dlm hd
      exact ⟨d1, d2, by simp, notMem_append d4 (by simp)⟩
    · intro _
      exact ⟨hpay, stIdx_store _ (wrAt hpay)⟩
    · intro hx
      obtain ⟨-, p2⟩ := succP hx
      exact ⟨hpay, pairing_append p2 _⟩
    · intro hx
      exact List.mem_append.mpr (Or.inl (succRd hx))
  -- futexWake, pc wake
  case _ hp =>
    injection h with h
    subst h
    have hpay : c.payload = true := pay.mpr (by rw [hp]; simp)
    refine ⟨?_, ?_, ?_, ?_, ?_, ?_, ?_, ?_, ?_, ?_, ?_, ?_, ?_, ?_, ?_, ?_, ?_, ?_⟩
    · simp [hpay]
    · intro _
      exact List.mem_append.mpr (Or.inl (wrAt hpay))
    · exact retE
    · intro hmb
      have hmb' : c.mayBlock = false := hmb
      rcases (nb hmb').1 with h' | h' | h' <;> rw [hp] at h' <;> exact PPc.noConfusion h'
    · intro hmb
      have hmb' : c.mayBlock = true := hmb
      exact ⟨by simp, (mb hmb').2⟩
    · intro hx
      obtain ⟨s1, s2⟩ := pre hx
      refine ⟨s1, fun m v => notMem_append (s2 m v) (by simp)⟩
    · exact park
    · intro hx
      have hx' : PPc.done = PPc.cas := hx
      exact PPc.noConfusion hx'
    · intro hx
      have hx' : PPc.done = PPc.chk := hx
      exact PPc.noConfusion hx'
    · intro hx
      have hx' : PPc.done = PPc.wr ∨ PPc.done = PPc.nb ∨ PPc.done = PPc.ld ∨
        PPc.done = PPc.cas ∨ PPc.done = PPc.chk ∨ PPc.done = PPc.stLate := hx
      rcases hx' with h' | h' | h' | h' | h' | h' <;> exact PPc.noConfusion h'
    · intro hx
      have hx' : PPc.done = PPc.stLate := hx
      exact PPc.noConfusion hx'
    · intro hx
      have hx' : PPc.done = PPc.wake := hx
      exact PPc.noConfusion hx'
    · intro _
      rcases pwakeS hp with h' | h'
      · exact Or.inr (Or.inl h')
      · exact Or.inr (Or.inr h')
    · intro _
      exact ⟨rfl, pwakeS hp⟩
    · intro hd
      obtain ⟨d1, d2, d3, d4⟩ := dlm hd
      exact ⟨d1, d2, d3, notMem_append d4 (by simp)⟩
    · intro hx
      obtain ⟨p1, p2⟩ := stIdxI hx
      exact ⟨p1, stIdx_append p2 _⟩
    · intro hx
      obtain ⟨p1, p2⟩ := succP hx
      exact ⟨p1, pairing_append p2 _⟩
    · intro hx
      exact List.mem_append.mpr (Or.inl (succRd hx))
  -- pc done: no producer step
  case _ =>
    exact Option.noConfusion h

theorem inv_step {c c' : Cfg} (hI : Inv c) {a : Act} (h : stepF c a = some c') :
    Inv c' := by
  obtain ⟨pay, wrAt, retE, nb, mb, pre, park, pcas, pchk, noSt, plate, pwakeS, pdone,
    wakeT, dlm, stIdxI, succP, succRd⟩ := hI
  cases a
  case p =>
    exact inv_pstep ⟨pay, wrAt, retE, nb, mb, pre, park, pcas, pchk, noSt, plate,
      pwakeS, pdone, wakeT, dlm, stIdxI, succP, succRd⟩ h
  case fastStep =>
    simp only [stepF] at h
    split at h
    case _ hcpc =>
      injection h with h
      split at h
      case _ htr =>
        subst h
        refine ⟨?_, ?_, ?_, ?_, ?_, ?_, ?_, ?_, ?_, ?_, ?_, ?_, ?_, ?_, ?_, ?_, ?_, ?_⟩
        · exact pay
        · intro hp'
          exact List.mem_append.mpr (Or.inl (wrAt hp'))
        · rw [hcpc] at retE
          simp at retE
          simp [retE]
        · intro hmb
          have hmb' : c.mayBlock = false := hmb
          obtain ⟨h1, h2, h3, h4, h5⟩ := nb hmb'
          exact ⟨h1, by simp, h3, fun m v => notMem_append (h4 m v) (by simp), notMem_append h5 (by simp)⟩
        · intro hmb
          have hmb' : c.mayBlock = true := hmb
          exact ⟨(mb hmb').1, by simp⟩
        · intro hx
          simp at hx
        · intro hx
          simp at hx
        · exact pcas
        · exact pchk
        · exact noSt
        · exact plate
        · exact pwakeS
        · exact pdone
        · intro hx
          have hx' : Ev.wakeP ∈ c.trace ++ [Ev.ldC MO.acquire c.state] := hx
          rcases List.mem_append.mp hx' with h' | h'
          · exact wakeT h'
          · simp at h'
        · intro hd
          obtain ⟨d1, d2, d3, d4⟩ := dlm hd
          exact ⟨by simp, by simp, d3, notMem_append d4 (by simp)⟩
        · intro hx
          obtain ⟨p1, p2⟩ := stIdxI hx
          exact ⟨p1, stIdx_append p2 _⟩
        · intro _
          have hS := stIdxI (Or.inl (try_wait_eq htr))
          exact ⟨hS.1, pairing_of_stIdx hS.2⟩
        · intro hx
          simp at hx
      case _ htr =>
        subst h
        refine ⟨?_, ?_, ?_, ?_, ?_, ?_, ?_, ?_, ?_, ?_, ?_, ?_, ?_, ?_, ?_, ?_, ?_, ?_⟩
        · exact pay
        · intro hp'
          exact List.mem_append.mpr (Or.inl (wrAt hp'))
        · rw [hcpc] at retE
          simp at retE
          simp [retE]
        · intro hmb
          have hmb' : c.mayBlock = false := hmb
          obtain ⟨h1, h2, h3, h4, h5⟩ := nb hmb'
          exact ⟨h1, by simp, h3, fun m v => notMem_append (h4 m v) (by simp), notMem_append h5 (by simp)⟩
        · intro hmb
          have hmb' : c.mayBlock = true := hmb
          exact ⟨(mb hmb').1, by simp⟩
        · intro _
          obtain ⟨s1, s2⟩ := pre (Or.inl hcpc)
          exact ⟨s1, fun m v => notMem_append (s2 m v) (by simp)⟩
        · intro hx
          simp at hx
        · exact pcas
        · exact pchk
        · exact noSt
        · exact plate
        · exact pwakeS
        · exact pdone
        · intro hx
          have hx' : Ev.wakeP ∈ c.trace ++ [Ev.ldC MO.acquire c.state] := hx
          rcases List.mem_append.mp hx' with h' | h'
          · exact wakeT h'
          · simp at h'
        · intro hd
          obtain ⟨d1, d2, d3, d4⟩ := dlm hd
          exact ⟨by simp, by simp, d3, notMem_append d4 (by simp)⟩
        · intro hx
          obtain ⟨p1, p2⟩ := stIdxI hx
          exact ⟨p1, stIdx_append p2 _⟩
        · intro hx
          simp at hx
        · intro hx
          simp at hx
    case _ =>
      exact Option.noConfusion h
  case spinPoll =>
    simp only [stepF] at h
    split at h
    case _ hcpc =>
      injection h with h
      split at h
      case _ htr =>
        subst h
        refine ⟨?_, ?_, ?_, ?_, ?_, ?_, ?_, ?_, ?_, ?_, ?_, ?_, ?_, ?_, ?_, ?_, ?_, ?_⟩
        · exact pay
        · intro hp'
          exact List.mem_append.mpr (Or.inl (wrAt hp'))
        · rw [hcpc] at retE
          simp at retE
          simp [retE]
        · intro hmb
          have hmb' : c.mayBlock = false := hmb
          obtain ⟨h1, h2, h3, h4, h5⟩ := nb hmb'
          exact ⟨h1, by simp, h3, fun m v => notMem_append (h4 m v) (by simp), notMem_append h5 (by simp)⟩
        · intro hmb
          have hmb' : c.mayBlock = true := hmb
          exact ⟨(mb hmb').1, by simp⟩
        · intro hx
          simp at hx
        · intro hx
          simp at hx
        · exact pcas
        · exact pchk
        · exact noSt
        · exact plate
        · exact pwakeS
        · exact pdone
        · intro hx
          have hx' : Ev.wakeP ∈ c.trace ++ [Ev.ldC MO.acquire c.state] := hx
          rcases List.mem_append.mp hx' with h' | h'
          · exact wakeT h'
          · simp at h'
        · intro hd
          obtain ⟨d1, d2, d3, d4⟩ := dlm hd
          exact ⟨by simp, by simp, d3, notMem_append d4 (by simp)⟩
        · intro hx
          obtain ⟨p1, p2⟩ := stIdxI hx
          exact ⟨p1, stIdx_append p2 _⟩
        · intro _
          have hS := stIdxI (ready_eq htr)
          exact ⟨hS.1, pairing_of_stIdx hS.2⟩
        · intro hx
          simp at hx
      case _ htr =>
        subst h
        refine ⟨?_, ?_, ?_, ?_, ?_, ?_, ?_, ?_, ?_, ?_, ?_, ?_, ?_, ?_, ?_, ?_, ?_, ?_⟩
        · exact pay
        · intro hp'
          exact List.mem_append.mpr (Or.inl (wrAt hp'))
        · exact retE
        · intro hmb
          have hmb' : c.mayBlock = false := hmb
          obtain ⟨h1, h2, h3, h4, h5⟩ := nb hmb'
          exact ⟨h1, h2, h3, fun m v => notMem_append (h4 m v) (by simp), notMem_append h5 (by simp)⟩
        · exact mb
        · intro hx
          obtain ⟨s1, s2⟩ := pre hx
          exact ⟨s1, fun m v => notMem_append (s2 m v) (by simp)⟩
        · exact park
        · exact pcas
        · exact pchk
        · exact noSt
        · exact plate
        · exact pwakeS
        · exact pdone
        · intro hx
          have hx' : Ev.wakeP ∈ c.trace ++ [Ev.ldC MO.acquire c.state] := hx
          rcases List.mem_append.mp hx' with h' | h'
          · exact wakeT h'
          · simp at h'
        · intro hd
          obtain ⟨d1, d2, d3, d4⟩ := dlm hd
          exact ⟨d1, d2, d3, notMem_append d4 (by simp)⟩
        · intro hx
          obtain ⟨p1, p2⟩ := stIdxI hx
          exact ⟨p1, stIdx_append p2 _⟩
        · intro hx
          obtain ⟨p1, p2⟩ := succP hx
          exact ⟨p1, pairing_append p2 _⟩
        · intro hx
          exact List.mem_append.mpr (Or.inl (succRd hx))
    case _ =>
      exact Option.noConfusion h
  case spinTimeout =>
    simp only [stepF] at h
    split at h
    case _ hcpc =>
      split at h
      case _ hdl =>
        exact Option.noConfusion h
      case _ hdl =>
        injection h with h
        subst h
        refine ⟨?_, ?_, ?_, ?_, ?_, ?_, ?_, ?_, ?_, ?_, ?_, ?_, ?_, ?_, ?_, ?_, ?_, ?_⟩
        · exact pay
        · exact wrAt
        · simp
        · intro hmb
          have hmb' : c.mayBlock = false := hmb
          obtain ⟨h1, h2, h3, h4, h5⟩ := nb hmb'
          exact ⟨h1, by simp, h3, h4, h5⟩
        · intro hmb
          have hmb' : c.mayBlock = true := hmb
          exact ⟨(mb hmb').1, by simp⟩
        · intro hx
          simp at hx
        · intro hx
          simp at hx
        · exact pcas
        · exact pchk
        · exact noSt
        · exact plate
        · exact pwakeS
        · exact pdone
        · exact wakeT
        · intro hd
          exact absurd hd hdl
        · exact stIdxI
        · intro hx
          simp at hx
        · intro hx
          simp at hx
    case _ =>
      exact Option.noConfusion h
  case spinAdvance =>
    simp only [stepF] at h
    split at h
    case _ hcpc =>
      injection h with h
      subst h
      refine ⟨?_, ?_, ?_, ?_, ?_, ?_, ?_, ?_, ?_, ?_, ?_, ?_, ?_, ?_, ?_, ?_, ?_, ?_⟩
      · exact pay
      · exact wrAt
      · rw [hcpc] at retE
        simp at retE
        cases hm : c.mayBlock <;> simp [hm, retE]
      · intro hmb
        have hmb' : c.mayBlock = false := hmb
        obtain ⟨h1, h2, h3, h4, h5⟩ := nb hmb'
        exact ⟨h1, by simp [hmb'], h3, h4, h5⟩
      · intro hmb
        have hmb' : c.mayBlock = true := hmb
        exact ⟨(mb hmb').1, by simp [hmb']⟩
      · intro _
        exact pre (Or.inr (Or.inl hcpc))
      · intro hx
        have hx' : (if c.mayBlock = true then CPc.cas else CPc.yield) = CPc.park ∨ (if c.mayBlock = true then CPc.cas else CPc.yield) = CPc.after ∨ (if c.mayBlock = true then CPc.cas else CPc.yield) = CPc.timedStore := hx
        cases hm : c.mayBlock <;> rw [hm] at hx' <;> simp at hx'
      · exact pcas
      · exact pchk
      · exact noSt
      · exact plate
      · exact pwakeS
      · exact pdone
      · exact wakeT
      · intro hd
        obtain ⟨d1, d2, d3, d4⟩ := dlm hd
        refine ⟨?_, ?_, d3, d4⟩ <;> cases hm : c.mayBlock <;> simp [hm]
      · exact stIdxI
      · intro hx
        have hx' : (if c.mayBlock = true then CPc.cas else CPc.yield) = CPc.succR ∨ (if c.mayBlock = true then CPc.cas else CPc.yield) = CPc.succ := hx
        cases hm : c.mayBlock <;> rw [hm] at hx' <;> simp at hx'
      · intro hx
        have hx' : (if c.mayBlock = true then CPc.cas else CPc.yield) = CPc.succ := hx
        cases hm : c.mayBlock <;> rw [hm] at hx' <;> simp at hx'
    case _ =>
      exact Option.noConfusion h
  case yieldPoll =>
    simp only [stepF] at h
    split at h
    case _ hcpc =>
      injection h with h
      split at h
      case _ htr =>
        subst h
        refine ⟨?_, ?_, ?_, ?_, ?_, ?_, ?_, ?_, ?_, ?_, ?_, ?_, ?_, ?_, ?_, ?_, ?_, ?_⟩
        · exact pay
        · intro hp'
          exact List.mem_append.mpr (Or.inl (wrAt hp'))
        · rw [hcpc] at retE
          simp at retE
          simp [retE]
        · intro hmb
          have hmb' : c.mayBlock = false := hmb
          obtain ⟨h1, h2, h3, h4, h5⟩ := nb hmb'
          exact ⟨h1, by simp, h3, fun m v => notMem_append (h4 m v) (by simp), notMem_append h5 (by simp)⟩
        · intro hmb
          have hmb' : c.mayBlock = true := hmb
          exact ⟨(mb hmb').1, by simp⟩
        · intro hx
          simp at hx
        · intro hx
          simp at hx
        · exact pcas
        · exact pchk
        · exact noSt
        · exact plate
        · exact pwakeS
        · exact pdone
        · intro hx
          have hx' : Ev.wakeP ∈ c.trace ++ [Ev.ldC MO.acquire c.state] := hx
          rcases List.mem_append.mp hx' with h' | h'
          · exact wakeT h'
          · simp at h'
        · intro hd
          obtain ⟨d1, d2, d3, d4⟩ := dlm hd
          exact ⟨by simp, by simp, d3, notMem_append d4 (by simp)⟩
        · intro hx
          obtain ⟨p1, p2⟩ := stIdxI hx
          exact ⟨p1, stIdx_append p2 _⟩
        · intro _
          have hS := stIdxI (ready_eq htr)
          exact ⟨hS.1, pairing_of_stIdx hS.2⟩
        · intro hx
          simp at hx
      case _ htr =>
        subst h
        refine ⟨?_, ?_, ?_, ?_, ?_, ?_, ?_, ?_, ?_, ?_, ?_, ?_, ?_, ?_, ?_, ?_, ?_, ?_⟩
        · exact pay
        · intro hp'
          exact List.mem_append.mpr (Or.inl (wrAt hp'))
        · exact retE
        · intro hmb
          have hmb' : c.mayBlock = false := hmb
          obtain ⟨h1, h2, h3, h4, h5⟩ := nb hmb'
          exact ⟨h1, h2, h3, fun m v => notMem_append (h4 m v) (by simp), notMem_append h5 (by simp)⟩
        · exact mb
        · intro hx
          obtain ⟨s1, s2⟩ := pre hx
          exact ⟨s1, fun m v => notMem_append (s2 m v) (by simp)⟩
        · exact park
        · exact pcas
        · exact pchk
        · exact noSt
        · exact plate
        · exact pwakeS
        · exact pdone
        · intro hx
          have hx' : Ev.wakeP ∈ c.trace ++ [Ev.ldC MO.acquire c.state] := hx
          rcases List.mem_append.mp hx' with h' | h'
          · exact wakeT h'
          · simp at h'
        · intro hd
          obtain ⟨d1, d2, d3, d4⟩ := dlm hd
          exact ⟨d1, d2, d3, notMem_append d4 (by simp)⟩
        · intro hx
          obtain ⟨p1, p2⟩ := stIdxI hx
          exact ⟨p1, stIdx_append p2 _⟩
        · intro hx
          obtain ⟨p1, p2⟩ := succP hx
          exact ⟨p1, pairing_append p2 _⟩
        · intro hx
          exact List.mem_append.mpr (Or.inl (succRd hx))
    case _ =>
      exact Option.noConfusion h
  case yieldTimeout =>
    simp only [stepF] at h
    split at h
    case _ hcpc =>
      split at h
      case _ hdl =>
        exact Option.noConfusion h
      case _ hdl =>
        injection h with h
        subst h
        refine ⟨?_, ?_, ?_, ?_, ?_, ?_, ?_, ?_, ?_, ?_, ?_, ?_, ?_, ?_, ?_, ?_, ?_, ?_⟩
        · exact pay
        · exact wrAt
        · simp
        · intro hmb
          have hmb' : c.mayBlock = false := hmb
          obtain ⟨h1, h2, h3, h4, h5⟩ := nb hmb'
          exact ⟨h1, by simp, h3, h4, h5⟩
        · intro hmb
          have hmb' : c.mayBlock = true := hmb
          exact ⟨(mb hmb').1, by simp⟩
        · intro hx
          simp at hx
        · intro hx
          simp at hx
        · exact pcas
        · exact pchk
        · exact noSt
        · exact plate
        · exact pwakeS
        · exact pdone
        · exact wakeT
        · intro hd
          exact absurd hd hdl
        · exact stIdxI
        · intro hx
          simp at hx
        · intro hx
          simp at hx
    case _ =>
      exact Option.noConfusion h
  case casStep =>
    simp only [stepF] at h
    split at h
    case _ hcpc =>
      split at h
      case _ hs =>
        injection h with h
        subst h
        refine ⟨?_, ?_, ?_, ?_, ?_, ?_, ?_, ?_, ?_, ?_, ?_, ?_, ?_, ?_, ?_, ?_, ?_, ?_⟩
        · exact pay
        · intro hp'
          exact List.mem_append.mpr (Or.inl (wrAt hp'))
        · rw [hcpc] at retE
          simp at retE
          simp [retE]
        · intro hmb
          have hmb' : c.mayBlock = false := hmb
          rcases (nb hmb').2.1 with h' | h' | h' | h' | h' | h' <;> rw [hcpc] at h' <;> exact CPc.noConfusion h'
        · intro hmb
          have hmb' : c.mayBlock = true := hmb
          exact ⟨(mb hmb').1, by simp⟩
        · intro hx
          simp at hx
        · intro _
          exact Or.inl rfl
        · intro hpp
          rcases pcas hpp with h' | h' | h'
          · exact Or.inl h'
          · rcases h'.2 with h'' | h'' <;> rw [hs] at h'' <;> exact V.noConfusion h''
          · rcases h'.2 with h'' | h'' <;> rw [hs] at h'' <;> exact V.noConfusion h''
        · intro hpp
          rcases pchk hpp with h' | h' <;> rcases h'.2 with h'' | h'' <;> rw [hs] at h'' <;> exact V.noConfusion h''
        · intro _
          exact ⟨by simp, by simp⟩
        · intro hpp
          rcases plate hpp with h' | h' <;> rw [hs] at h' <;> exact V.noConfusion h'
        · intro hpp
          rcases pwakeS hpp with h' | h' <;> rw [hs] at h' <;> exact V.noConfusion h'
        · intro hpp
          rcases pdone hpp with h' | h' | h' <;> rw [hs] at h' <;> exact V.noConfusion h'
        · intro hx
          have hx' : Ev.wakeP ∈ c.trace ++ [Ev.stC MO.relaxed V.WAITING] := hx
          rcases List.mem_append.mp hx' with h' | h'
          · rcases (wakeT h').2 with h'' | h'' <;> rw [hs] at h'' <;> exact V.noConfusion h''
          · simp at h'
        · intro hd
          obtain ⟨d1, d2, d3, d4⟩ := dlm hd
          exact ⟨by simp, by simp, by simp, notMem_append d4 (by simp)⟩
        · intro hx
          simp at hx
        · intro hx
          simp at hx
        · intro hx
          simp at hx
      case _ hs =>
        injection h with h
        subst h
        refine ⟨?_, ?_, ?_, ?_, ?_, ?_, ?_, ?_, ?_, ?_, ?_, ?_, ?_, ?_, ?_, ?_, ?_, ?_⟩
        · exact pay
        · intro hp'
          exact List.mem_append.mpr (Or.inl (wrAt hp'))
        · rw [hcpc] at retE
          simp at retE
          simp [retE]
        · intro hmb
          have hmb' : c.mayBlock = false := hmb
          rcases (nb hmb').2.1 with h' | h' | h' | h' | h' | h' <;> rw [hcpc] at h' <;> exact CPc.noConfusion h'
        · intro hmb
          have hmb' : c.mayBlock = true := hmb
          exact ⟨(mb hmb').1, by simp⟩
        · intro hx
          simp at hx
        · intro hx
          simp at hx
        · exact pcas
        · exact pchk
        · exact noSt
        · exact plate
        · exact pwakeS
        · exact pdone
        · intro hx
          have hx' : Ev.wakeP ∈ c.trace ++ [Ev.ldC MO.acquire c.state] := hx
          rcases List.mem_append.mp hx' with h' | h'
          · exact wakeT h'
          · simp at h'
        · intro hd
          obtain ⟨d1, d2, d3, d4⟩ := dlm hd
          exact ⟨by simp, by simp, d3, notMem_append d4 (by simp)⟩
        · intro hx
          obtain ⟨p1, p2⟩ := stIdxI hx
          exact ⟨p1, stIdx_append p2 _⟩
        · intro _
          have hE : c.state = V.EARLY_DELIVERY := by
            rcases (pre (Or.inr (Or.inr (Or.inr hcpc)))).1 with h' | h'
            · exact absurd h' hs
            · exact h'
          have hS := stIdxI (Or.inl hE)
          exact ⟨hS.1, pairing_of_stIdx hS.2⟩
        · intro hx
          simp at hx
    case _ =>
      exact Option.noConfusion h
  case parkTimeout =>
    simp only [stepF] at h
    split at h
    case _ hcpc =>
      split at h
      case _ hdl =>
        exact Option.noConfusion h
      case _ hdl =>
        injection h with h
        subst h
        refine ⟨?_, ?_, ?_, ?_, ?_, ?_, ?_, ?_, ?_, ?_, ?_, ?_, ?_, ?_, ?_, ?_, ?_, ?_⟩
        · exact pay
        · exact wrAt
        · rw [hcpc] at retE
          simp at retE
          simp [retE]
        · intro hmb
          have hmb' : c.mayBlock = false := hmb
          rcases (nb hmb').2.1 with h' | h' | h' | h' | h' | h' <;> rw [hcpc] at h' <;> exact CPc.noConfusion h'
        · intro hmb
          have hmb' : c.mayBlock = true := hmb
          exact ⟨(mb hmb').1, by simp⟩
        · intro hx
          simp at hx
        · intro _
          exact park (Or.inl hcpc)
        · exact pcas
        · exact pchk
        · exact noSt
        · exact plate
        · exact pwakeS
        · exact pdone
        · exact wakeT
        · intro hd
          exact absurd hd hdl
        · exact stIdxI
        · intro hx
          simp at hx
        · intro hx
          simp at hx
    case _ =>
      exact Option.noConfusion h
  case parkWake =>
    simp only [stepF] at h
    split at h
    case _ hcpc =>
      injection h with h
      subst h
      refine ⟨?_, ?_, ?_, ?_, ?_, ?_, ?_, ?_, ?_, ?_, ?_, ?_, ?_, ?_, ?_, ?_, ?_, ?_⟩
      · exact pay
      · exact wrAt
      · rw [hcpc] at retE
        simp at retE
        simp [retE]
      · intro hmb
        have hmb' : c.mayBlock = false := hmb
        rcases (nb hmb').2.1 with h' | h' | h' | h' | h' | h' <;> rw [hcpc] at h' <;> exact CPc.noConfusion h'
      · intro hmb
        have hmb' : c.mayBlock = true := hmb
        exact ⟨(mb hmb').1, by simp⟩
      · intro hx
        simp at hx
      · intro _
        exact park (Or.inl hcpc)
      · exact pcas
      · exact pchk
      · exact noSt
      · exact plate
      · exact pwakeS
      · exact pdone
      · exact wakeT
      · intro hd
        obtain ⟨d1, d2, d3, d4⟩ := dlm hd
        exact ⟨by simp, by simp, d3, d4⟩
      · exact stIdxI
      · intro hx
        simp at hx
      · intro hx
        simp at hx
    case _ =>
      exact Option.noConfusion h
  case afterLoad =>
    simp only [stepF] at h
    split at h
    case _ hcpc =>
      injection h with h
      split at h
      case _ hs =>
        subst h
        refine ⟨?_, ?_, ?_, ?_, ?_, ?_, ?_, ?_, ?_, ?_, ?_, ?_, ?_, ?_, ?_, ?_, ?_, ?_⟩
        · exact pay
        · intro hp'
          exact List.mem_append.mpr (Or.inl (wrAt hp'))
        · rw [hcpc] at retE
          simp at retE
          simp [retE]
        · intro hmb
          have hmb' : c.mayBlock = false := hmb
          rcases (nb hmb').2.1 with h' | h' | h' | h' | h' | h' <;> rw [hcpc] at h' <;> exact CPc.noConfusion h'
        · intro hmb
          have hmb' : c.mayBlock = true := hmb
          exact ⟨(mb hmb').1, by simp⟩
        · intro hx
          simp at hx
        · intro hx
          simp at hx
        · exact pcas
        · exact pchk
        · exact noSt
        · exact plate
        · exact pwakeS
        · exact pdone
        · intro hx
          have hx' : Ev.wakeP ∈ c.trace ++ [Ev.ldC MO.acquire c.state] := hx
          rcases List.mem_append.mp hx' with h' | h'
          · exact wakeT h'
          · simp at h'
        · intro hd
          obtain ⟨d1, d2, d3, d4⟩ := dlm hd
          exact ⟨by simp, by simp, d3, notMem_append d4 (by simp)⟩
        · intro hx
          obtain ⟨p1, p2⟩ := stIdxI hx
          exact ⟨p1, stIdx_append p2 _⟩
        · intro _
          have hS := stIdxI (Or.inr hs)
          exact ⟨hS.1, pairing_of_stIdx hS.2⟩
        · intro hx
          simp at hx
      case _ hs =>
        subst h
        refine ⟨?_, ?_, ?_, ?_, ?_, ?_, ?_, ?_, ?_, ?_, ?_, ?_, ?_, ?_, ?_, ?_, ?_, ?_⟩
        · exact pay
        · intro hp'
          exact List.mem_append.mpr (Or.inl (wrAt hp'))
        · rw [hcpc] at retE
          simp at retE
          simp [retE]
        · intro hmb
          have hmb' : c.mayBlock = false := hmb
          rcases (nb hmb').2.1 with h' | h' | h' | h' | h' | h' <;> rw [hcpc] at h' <;> exact CPc.noConfusion h'
        · intro hmb
          have hmb' : c.mayBlock = true := hmb
          exact ⟨(mb hmb').1, by simp⟩
        · intro hx
          simp at hx
        · intro _
          exact park (Or.inr (Or.inl hcpc))
        · exact pcas
        · exact pchk
        · exact noSt
        · exact plate
        · exact pwakeS
        · exact pdone
        · intro hx
          have hx' : Ev.wakeP ∈ c.trace ++ [Ev.ldC MO.acquire c.state] := hx
          rcases List.mem_append.mp hx' with h' | h'
          · exact wakeT h'
          · simp at h'
        · intro hd
          obtain ⟨d1, d2, d3, d4⟩ := dlm hd
          exact ⟨by simp, by simp, d3, notMem_append d4 (by simp)⟩
        · intro hx
          obtain ⟨p1, p2⟩ := stIdxI hx
          exact ⟨p1, stIdx_append p2 _⟩
        · intro hx
          simp at hx
        · intro hx
          simp at hx
    case _ =>
      exact Option.noConfusion h
  case timedStoreStep =>
    simp only [stepF] at h
    split at h
    case _ hcpc =>
      injection h with h
      subst h
      refine ⟨?_, ?_, ?_, ?_, ?_, ?_, ?_, ?_, ?_, ?_, ?_, ?_, ?_, ?_, ?_, ?_, ?_, ?_⟩
      · exact pay
      · intro hp'
        exact List.mem_append.mpr (Or.inl (wrAt hp'))
      · simp
      · intro hmb
        have hmb' : c.mayBlock = false := hmb
        rcases (nb hmb').2.1 with h' | h' | h' | h' | h' | h' <;> rw [hcpc] at h' <;> exact CPc.noConfusion h'
      · intro hmb
        have hmb' : c.mayBlock = true := hmb
        exact ⟨(mb hmb').1, by simp⟩
      · intro hx
        simp at hx
      · intro hx
        simp at hx
      · intro hpp
        rcases pcas hpp with h' | h' | h'
        · exact Or.inl h'
        · exact Or.inr (Or.inl ⟨h'.1, Or.inr rfl⟩)
        · exact Or.inr (Or.inr ⟨h'.1, Or.inl rfl⟩)
      · intro hpp
        rcases pchk hpp with h' | h'
        · exact Or.inl ⟨h'.1, Or.inr rfl⟩
        · exact Or.inr ⟨h'.1, Or.inl rfl⟩
      · intro _
        exact ⟨by simp, by simp⟩
      · intro _
        exact Or.inr rfl
      · intro _
        exact Or.inr rfl
      · intro _
        exact Or.inr (Or.inr rfl)
      · intro hx
        have hx' : Ev.wakeP ∈ c.trace ++ [Ev.stC MO.relaxed V.TIMED_OUT] := hx
        rcases List.mem_append.mp hx' with h' | h'
        · exact ⟨(wakeT h').1, Or.inr rfl⟩
        · simp at h'
      · intro hd
        exact absurd hcpc (dlm hd).1
      · intro hx
        simp at hx
      · intro hx
        simp at hx
      · intro hx
        simp at hx
    case _ =>
      exact Option.noConfusion h
  case readPayload =>
    simp only [stepF] at h
    split at h
    case _ hcpc =>
      injection h with h
      subst h
      refine ⟨?_, ?_, ?_, ?_, ?_, ?_, ?_, ?_, ?_, ?_, ?_, ?_, ?_, ?_, ?_, ?_, ?_, ?_⟩
      · exact pay
      · intro hp'
        exact List.mem_append.mpr (Or.inl (wrAt hp'))
      · simp
      · intro hmb
        have hmb' : c.mayBlock = false := hmb
        obtain ⟨h1, h2, h3, h4, h5⟩ := nb hmb'
        exact ⟨h1, by simp, h3, fun m v => notMem_append (h4 m v) (by simp), notMem_append h5 (by simp)⟩
      · intro hmb
        have hmb' : c.mayBlock = true := hmb
        exact ⟨(mb hmb').1, by simp⟩
      · intro hx
        simp at hx
      · intro hx
        simp at hx
      · exact pcas
      · exact pchk
      · exact noSt
      · exact plate
      · exact pwakeS
      · exact pdone
      · intro hx
        have hx' : Ev.wakeP ∈ c.trace ++ [Ev.rdC c.payload] := hx
        rcases List.mem_append.mp hx' with h' | h'
        · exact wakeT h'
        · simp at h'
      · intro hd
        obtain ⟨d1, d2, d3, d4⟩ := dlm hd
        exact ⟨by simp, by simp, d3, notMem_append d4 (by simp)⟩
      · intro hx
        obtain ⟨p1, p2⟩ := stIdxI hx
        exact ⟨p1, stIdx_append p2 _⟩
      · intro _
        obtain ⟨p1, p2⟩ := succP (Or.inl hcpc)
        exact ⟨p1, pairing_append p2 _⟩
      · intro _
        have hpay := (succP (Or.inl hcpc)).1
        refine List.mem_append.mpr (Or.inr ?_)
        rw [hpay]
        simp
    case _ =>
      exact Option.noConfusion h


/-- The invariant is preserved by whole schedules. -/
theorem inv_run {as : List Act} {c c' : Cfg} (hI : Inv c) (h : run c as = some c') :
    Inv c' := by
  induction as generalizing c with
  | nil =>
      injection h with h
      subst h
      exact hI
  | cons a as ih =>
      simp only [run] at h
      split at h
      case _ c2 heq => exact ih (inv_step hI heq) h
      case _ => exact Option.noConfusion h

/-- Every configuration reachable from the start of a lifetime satisfies
the invariant. -/
theorem reach_inv {c : Cfg} (h : Reach c) : Inv c := by
  obtain ⟨mb, dlM, opt, as, h⟩ := h
  exact inv_run (inv_init mb dlM opt) h

/-- Single steps change neither the `MayBlock` parameter nor the deadline
shape. -/
theorem step_fixed {c c' : Cfg} {a : Act} (h : stepF c a = some c') :
    c'.mayBlock = c.mayBlock ∧ c'.dlMax = c.dlMax := by
  cases a <;> simp only [stepF, pstep] at h <;> repeat' split at h
  all_goals
    first
    | exact Option.noConfusion h
    | (injection h with h; subst h; exact ⟨rfl, rfl⟩)

/-- Whole runs change neither the `MayBlock` parameter nor the deadline
shape. -/
theorem run_fixed {as : List Act} {c c' : Cfg} (h : run c as = some c') :
    c'.mayBlock = c.mayBlock ∧ c'.dlMax = c.dlMax := by
  induction as generalizing c with
  | nil =>
      injection h with h
      subst h
      exact ⟨rfl, rfl⟩
  | cons a as ih =>
      simp only [run] at h
      split at h
      case _ c2 heq =>
        obtain ⟨h1, h2⟩ := ih h
        obtain ⟨g1, g2⟩ := step_fixed heq
        exact ⟨h1.trans g1, h2.trans g2⟩
      case _ => exact Option.noConfusion h

/-- Which single-step changes of `state_` are possible in reachable
configurations: either the step leaves the field alone, or it moves along
one of the four specified edges, or it is one of the two racy overwrites
between a late post store and the consumer's timeout store; and no step
ever writes INIT back. -/
theorem step_edges {c c' : Cfg} (hI : Inv c) {a : Act} (h : stepF c a = some c') :
    (c'.state = c.state ∨ specEdge c.state c'.state = true ∨
      (c.state = V.TIMED_OUT ∧ c'.state = V.LATE_DELIVERY) ∨
      (c.state = V.LATE_DELIVERY ∧ c'.state = V.TIMED_OUT)) ∧
    (c'.state = V.INIT → c.state = V.INIT) := by
  cases a
  case p =>
    simp only [stepF, pstep] at h
    split at h
    case _ hp =>
      injection h with h
      subst h
      exact ⟨Or.inl rfl, fun hx => hx⟩
    case _ hp =>
      injection h with h
      subst h
      have hmbF : c.mayBlock = false := by
        cases hm : c.mayBlock
        · rfl
        · exact absurd hp (hI.mb hm).1
      rcases (hI.nb hmbF).2.2.1 with hs | hs
      · refine ⟨Or.inr (Or.inl ?_), fun hx => V.noConfusion hx⟩
        rw [hs]
        rfl
      · exact ⟨Or.inl (by rw [hs]), fun hx => V.noConfusion hx⟩
    case _ hp =>
      injection h with h
      subst h
      exact ⟨Or.inl rfl, fun hx => hx⟩
    case _ hp =>
      split at h
      case _ hb =>
        split at h
        case _ hs =>
          injection h with h
          subst h
          refine ⟨Or.inr (Or.inl ?_), fun hx => V.noConfusion hx⟩
          rw [hs]
          rfl
        case _ hs =>
          injection h with h
          subst h
          exact ⟨Or.inl rfl, fun hx => hx⟩
      case _ hb =>
        injection h with h
        subst h
        exact ⟨Or.inl rfl, fun hx => hx⟩
    case _ hp =>
      split at h
      case _ hb =>
        injection h with h
        subst h
        exact ⟨Or.inl rfl, fun hx => hx⟩
      case _ hb =>
        injection h with h
        subst h
        exact ⟨Or.inl rfl, fun hx => hx⟩
    case _ hp =>
      injection h with h
      subst h
      rcases hI.plate hp with hs | hs
      · refine ⟨Or.inr (Or.inl ?_), fun hx => V.noConfusion hx⟩
        rw [hs]
        rfl
      · exact ⟨Or.inr (Or.inr (Or.inl ⟨hs, rfl⟩)), fun hx => V.noConfusion hx⟩
    case _ hp =>
      injection h with h
      subst h
      exact ⟨Or.inl rfl, fun hx => hx⟩
    case _ =>
      exact Option.noConfusion h
  case fastStep =>
    simp only [stepF] at h
    split at h
    case _ hcpc =>
      injection h with h
      split at h
      case _ htr =>
        subst h
        exact ⟨Or.inl rfl, fun hx => hx⟩
      case _ htr =>
        subst h
        exact ⟨Or.inl rfl, fun hx => hx⟩
    case _ =>
      exact Option.noConfusion h
  case spinPoll =>
    simp only [stepF] at h
    split at h
    case _ hcpc =>
      injection h with h
      split at h
      case _ htr =>
        subst h
        exact ⟨Or.inl rfl, fun hx => hx⟩
      case _ htr =>
        subst h
        exact ⟨Or.inl rfl, fun hx => hx⟩
    case _ =>
      exact Option.noConfusion h
  case spinTimeout =>
    simp only [stepF] at h
    split at h
    case _ hcpc =>
      split at h
      case _ hdl =>
        exact Option.noConfusion h
      case _ hdl =>
        injection h with h
        subst h
        exact ⟨Or.inl rfl, fun hx => hx⟩
    case _ =>
      exact Option.noConfusion h
  case spinAdvance =>
    simp only [stepF] at h
    split at h
    case _ hcpc =>
      injection h with h
      subst h
      exact ⟨Or.inl rfl, fun hx => hx⟩
    case _ =>
      exact Option.noConfusion h
  case yieldPoll =>
    simp only [stepF] at h
    split at h
    case _ hcpc =>
      injection h with h
      split at h
      case _ htr =>
        subst h
        exact ⟨Or.inl rfl, fun hx => hx⟩
      case _ htr =>
        subst h
        exact ⟨Or.inl rfl, fun hx => hx⟩
    case _ =>
      exact Option.noConfusion h
  case yieldTimeout =>
    simp only [stepF] at h
    split at h
    case _ hcpc =>
      split at h
      case _ hdl =>
        exact Option.noConfusion h
      case _ hdl =>
        injection h with h
        subst h
        exact ⟨Or.inl rfl, fun hx => hx⟩
    case _ =>
      exact Option.noConfusion h
  case casStep =>
    simp only [stepF] at h
    split at h
    case _ hcpc =>
      split at h
      case _ hs =>
        injection h with h
        subst h
        refine ⟨Or.inr (Or.inl ?_), fun hx => V.noConfusion hx⟩
        rw [hs]
        rfl
      case _ hs =>
        injection h with h
        subst h
        exact ⟨Or.inl rfl, fun hx => hx⟩
    case _ =>
      exact Option.noConfusion h
  case parkTimeout =>
    simp only [stepF] at h
    split at h
    case _ hcpc =>
      split at h
      case _ hdl =>
        exact Option.noConfusion h
      case _ hdl =>
        injection h with h
        subst h
        exact ⟨Or.inl rfl, fun hx => hx⟩
    case _ =>
      exact Option.noConfusion h
  case parkWake =>
    simp only [stepF] at h
    split at h
    case _ hcpc =>
      injection h with h
      subst h
      exact ⟨Or.inl rfl, fun hx => hx⟩
    case _ =>
      exact Option.noConfusion h
  case afterLoad =>
    simp only [stepF] at h
    split at h
    case _ hcpc =>
      injection h with h
      split at h
      case _ hs =>
        subst h
        exact ⟨Or.inl rfl, fun hx => hx⟩
      case _ hs =>
        subst h
        exact ⟨Or.inl rfl, fun hx => hx⟩
    case _ =>
      exact Option.noConfusion h
  case timedStoreStep =>
    simp only [stepF] at h
    split at h
    case _ hcpc =>
      injection h with h
      subst h
      rcases hI.park (Or.inr (Or.inr hcpc)) with hs | hs
      · refine ⟨Or.inr (Or.inl ?_), fun hx => V.noConfusion hx⟩
        rw [hs]
        rfl
      · exact ⟨Or.inr (Or.inr (Or.inr ⟨hs, rfl⟩)), fun hx => V.noConfusion hx⟩
    case _ =>
      exact Option.noConfusion h
  case readPayload =>
    simp only [stepF] at h
    split at h
    case _ hcpc =>
      injection h with h
      subst h
      exact ⟨Or.inl rfl, fun hx => hx⟩
    case _ =>
      exact Option.noConfusion h


theorem kinv_step {c c' : Cfg} (hK : Kinv c) {a : Act} (h : stepF c a = some c') :
    Kinv c' := by
  obtain ⟨k1, k2, k3, k4, k5, k6, k7, k8, k9, k10⟩ := hK
  cases a
  case p =>
    simp only [stepF, pstep] at h
    split at h
    case _ hp =>
      injection h with h
      subst h
      have hsI : c.state = V.INIT := k3 (Or.inl hp)
      refine ⟨k1, k2, fun _ => hsI, fun hx => ?_, fun hx => ?_, ?_, ?_, ?_,
        notMem_append k9 (by simp), fun m v => notMem_append (k10 m v) (by simp)⟩
      · have hx' : (if c.mayBlock = true then PPc.ld else PPc.nb) = PPc.cas := hx
        cases hm : c.mayBlock <;> rw [hm] at hx' <;> exact PPc.noConfusion hx'
      · have hx' : (if c.mayBlock = true then PPc.ld else PPc.nb) = PPc.done := hx
        cases hm : c.mayBlock <;> rw [hm] at hx' <;> exact PPc.noConfusion hx'
      · intro hx
        have hx' : (if c.mayBlock = true then PPc.ld else PPc.nb) = PPc.chk := hx
        cases hm : c.mayBlock <;> rw [hm] at hx' <;> exact PPc.noConfusion hx'
      · intro hx
        have hx' : (if c.mayBlock = true then PPc.ld else PPc.nb) = PPc.stLate := hx
        cases hm : c.mayBlock <;> rw [hm] at hx' <;> exact PPc.noConfusion hx'
      · intro hx
        have hx' : (if c.mayBlock = true then PPc.ld else PPc.nb) = PPc.wake := hx
        cases hm : c.mayBlock <;> rw [hm] at hx' <;> exact PPc.noConfusion hx'
    case _ hp =>
      injection h with h
      subst h
      refine ⟨k1, k2, fun hx => ?_, fun hx => ?_, fun _ => Or.inr rfl, by simp, by simp,
        by simp, notMem_append k9 (by simp), fun m v => notMem_append (k10 m v) (by simp)⟩
      · rcases hx with h' | h' | h' <;> simp at h'
      · simp at hx
    case _ hp =>
      injection h with h
      subst h
      have hsI : c.state = V.INIT := k3 (Or.inr (Or.inr hp))
      refine ⟨k1, k2, fun hx => ?_, fun _ => ⟨hsI, hsI⟩, fun hx => ?_, by simp, by simp,
        by simp, k9, k10⟩
      · rcases hx with h' | h' | h' <;> simp at h'
      · simp at hx
    case _ hp =>
      obtain ⟨hsI, hbI⟩ := k4 hp
      repeat' split at h
      all_goals try exact absurd hbI (by assumption)
      injection h with h
      subst h
      refine ⟨k1, k2, fun hx => ?_, fun hx => ?_, fun _ => Or.inr rfl, by simp,
        by simp, by simp, notMem_append k9 (by simp),
        fun m v => notMem_append (k10 m v) (by simp)⟩
      · rcases hx with h' | h' | h' <;> simp at h'
      · simp at hx
    case _ hp => exact absurd hp k6
    case _ hp => exact absurd hp k7
    case _ hp => exact absurd hp k8
    case _ => exact Option.noConfusion h
  case fastStep =>
    simp only [stepF] at h
    split at h
    case _ hcpc =>
      rw [k1] at hcpc
      exact CPc.noConfusion hcpc
    case _ => exact Option.noConfusion h
  case spinPoll =>
    simp only [stepF] at h
    split at h
    case _ hcpc =>
      rw [k1] at hcpc
      exact CPc.noConfusion hcpc
    case _ => exact Option.noConfusion h
  case spinTimeout =>
    simp only [stepF] at h
    split at h
    case _ hcpc =>
      rw [k1] at hcpc
      exact CPc.noConfusion hcpc
    case _ => exact Option.noConfusion h
  case spinAdvance =>
    simp only [stepF] at h
    split at h
    case _ hcpc =>
      rw [k1] at hcpc
      exact CPc.noConfusion hcpc
    case _ => exact Option.noConfusion h
  case yieldPoll =>
    simp only [stepF] at h
    split at h
    case _ hcpc =>
      rw [k1] at hcpc
      exact CPc.noConfusion hcpc
    case _ => exact Option.noConfusion h
  case yieldTimeout =>
    simp only [stepF] at h
    split at h
    case _ hcpc =>
      rw [k1] at hcpc
      exact CPc.noConfusion hcpc
    case _ => exact Option.noConfusion h
  case casStep =>
    simp only [stepF] at h
    split at h
    case _ hcpc =>
      rw [k1] at hcpc
      exact CPc.noConfusion hcpc
    case _ => exact Option.noConfusion h
  case parkTimeout =>
    simp only [stepF] at h
    split at h
    case _ hcpc =>
      rw [k1] at hcpc
      exact CPc.noConfusion hcpc
    case _ => exact Option.noConfusion h
  case parkWake =>
    simp only [stepF] at h
    split at h
    case _ hcpc =>
      rw [k1] at hcpc
      exact CPc.noConfusion hcpc
    case _ => exact Option.noConfusion h
  case afterLoad =>
    simp only [stepF] at h
    split at h
    case _ hcpc =>
      rw [k1] at hcpc
      exact CPc.noConfusion hcpc
    case _ => exact Option.noConfusion h
  case timedStoreStep =>
    simp only [stepF] at h
    split at h
    case _ hcpc =>
      rw [k1] at hcpc
      exact CPc.noConfusion hcpc
    case _ => exact Option.noConfusion h
  case readPayload =>
    simp only [stepF] at h
    split at h
    case _ hcpc =>
      rw [k1] at hcpc
      exact CPc.noConfusion hcpc
    case _ => exact Option.noConfusion h

theorem kinv_run {as : List Act} {c c' : Cfg} (hK : Kinv c) (h : run c as = some c') :
    Kinv c' := by
  induction as generalizing c with
  | nil =>
      injection h with h
      subst h
      exact hK
  | cons a as ih =>
      simp only [run] at h
      split at h
      case _ c2 heq => exact ih (kinv_step hK heq) h
      case _ => exact Option.noConfusion h

/-- Entering the spin-timeout return from a reachable configuration that
is still spinning on INIT establishes the frame invariant. -/
theorem kinv_entry {c : Cfg} (hI : Inv c) (hc : c.cpc = CPc.spin) (hs : c.state = V.INIT) :
    Kinv { c with cpc := CPc.failDone, ret := some false } := by
  refine ⟨rfl, rfl, fun _ => hs, fun hx => ?_, fun hx => ?_, ?_, ?_, ?_, ?_, ?_⟩
  · rcases hI.pcas hx with h' | h' | h'
    · exact ⟨hs, h'⟩
    · rcases h'.2 with h'' | h'' <;> rw [hs] at h'' <;> exact V.noConfusion h''
    · rcases h'.2 with h'' | h'' <;> rw [hs] at h'' <;> exact V.noConfusion h''
  · rcases hI.pdone hx with h' | h' | h' <;> rw [hs] at h' <;> exact V.noConfusion h'
  · intro hx
    rcases hI.pchk hx with h' | h' <;> rcases h'.2 with h'' | h'' <;> rw [hs] at h'' <;>
      exact V.noConfusion h''
  · intro hx
    rcases hI.plate hx with h' | h' <;> rw [hs] at h' <;> exact V.noConfusion h'
  · intro hx
    rcases hI.pwakeS hx with h' | h' <;> rw [hs] at h' <;> exact V.noConfusion h'
  · intro hx
    rcases (hI.wakeT hx).2 with h' | h' <;> rw [hs] at h' <;> exact V.noConfusion h'
  · exact (hI.pre (Or.inr (Or.inl hc))).2

/-- A true return value means the wait returned success. -/
theorem ret_true_succ {c : Cfg} (hI : Inv c) (hr : c.ret = some true) :
    c.cpc = CPc.succ := by
  rw [hI.retE] at hr
  by_cases h1 : c.cpc = CPc.succ
  · exact h1
  · by_cases h2 : c.cpc = CPc.failDone
    · simp [h1, h2] at hr
    · simp [h1, h2] at hr

/-- A false return value means the wait returned timeout. -/
theorem ret_false_failDone {c : Cfg} (hI : Inv c) (hr : c.ret = some false) :
    c.cpc = CPc.failDone := by
  rw [hI.retE] at hr
  by_cases h1 : c.cpc = CPc.succ
  · simp [h1] at hr
  · by_cases h2 : c.cpc = CPc.failDone
    · exact h2
    · simp [h1, h2] at hr


/-- C1: for every interleaving of one post() and one wait-family call on
the same Baton lifetime, if the wait-family call returns success then the
payload the producer wrote before calling post() is visible to the
consumer after the wait returns, and the trace contains the
happens-before edge: a release store of the state value by the producer,
preceded by the payload write, and later matched by the consumer's
acquire load of that value. -/
theorem baton_c1_happens_before (mb dlM : Bool) (opt : WaitOptions) (as : List Act)
    (c : Cfg) (h : run (initC mb dlM opt) as = some c) (hr : c.ret = some true) :
    c.payload = true ∧ Ev.rdC true ∈ c.trace ∧ Pairing c.trace := by
  have hI := inv_run (inv_init mb dlM opt) h
  have hsucc := ret_true_succ hI hr
  obtain ⟨p1, p2⟩ := hI.succP (Or.inr hsucc)
  exact ⟨p1, hI.succRd hsucc, p2⟩

theorem baton_c1_happens_before_witness :
    c1cfg.payload = true ∧ Ev.rdC true ∈ c1cfg.trace ∧ Pairing c1cfg.trace :=
  baton_c1_happens_before true true wait_options c1sched c1cfg rfl rfl

/-- C2, counterexample: a reachable interleaving in one lifetime (one
post, one bounded wait, no reset) in which `state_` moves from TIMED_OUT
to LATE_DELIVERY, an edge outside the four claimed ones.  The consumer
CASes INIT -> WAITING and parks; the producer's post() observes WAITING;
the consumer's futexWait then times out and stores TIMED_OUT; the
producer finally stores LATE_DELIVERY over it. -/
theorem baton_c2_counterexample :
    (run (initC true false wait_options) c2schedA).map Cfg.state = some V.TIMED_OUT ∧
    (run (initC true false wait_options) (c2schedA ++ [Act.p])).map Cfg.state =
      some V.LATE_DELIVERY ∧
    specEdge V.TIMED_OUT V.LATE_DELIVERY = false :=
  ⟨rfl, rfl, rfl⟩

/-- C2, amended: within one lifetime (no reset) every step either leaves
`state_` unchanged or moves it along INIT -> EARLY_DELIVERY,
INIT -> WAITING, WAITING -> LATE_DELIVERY, WAITING -> TIMED_OUT, or - when
a post() that already observed WAITING races with the consumer's timeout -
along the two overwrites TIMED_OUT -> LATE_DELIVERY and
LATE_DELIVERY -> TIMED_OUT; and no operation other than reset() ever
returns the state to INIT. -/
theorem baton_c2_transitions_amended (c : Cfg) (a : Act) (c' : Cfg)
    (hR : Reach c) (h : stepF c a = some c') :
    (c'.state = c.state ∨ specEdge c.state c'.state = true ∨
      (c.state = V.TIMED_OUT ∧ c'.state = V.LATE_DELIVERY) ∨
      (c.state = V.LATE_DELIVERY ∧ c'.state = V.TIMED_OUT)) ∧
    (c'.state = V.INIT → c.state = V.INIT) :=
  step_edges (reach_inv hR) h

theorem baton_c2_transitions_amended_witness :
    c2amB.state = c2amA.state ∨ specEdge c2amA.state c2amB.state = true ∨
    (c2amA.state = V.TIMED_OUT ∧ c2amB.state = V.LATE_DELIVERY) ∨
    (c2amA.state = V.LATE_DELIVERY ∧ c2amB.state = V.TIMED_OUT) :=
  (baton_c2_transitions_amended c2amA Act.fastStep c2amB
    ⟨true, false, wait_options, [], rfl⟩ rfl).1

/-- C3: in blocking mode post() behaves by case analysis on the observed
state (Baton.h lines 159-183): after loading `before`, if it saw INIT and
the CAS still finds INIT it stores EARLY_DELIVERY with release order and
finishes without ever reaching the wake step; if the CAS fails it
re-reads the observed value into `before` and falls to the check; if the
check sees TIMED_OUT the post returns as a pure no-op - state, trace,
and the consumer's pending return value all unchanged; otherwise
(WAITING) it stores LATE_DELIVERY with release order and then issues the
futexWake, the only producer step that touches the park facility; and no
producer step ever changes the consumer's return value. -/
theorem baton_c3_post_cases (c : Cfg) :
    (c.ppc = PPc.ld → stepF c Act.p = some { c with before := c.state, ppc := PPc.cas }) ∧
    (c.ppc = PPc.cas → c.before = V.INIT → c.state = V.INIT →
      stepF c Act.p = some { c with state := V.EARLY_DELIVERY, ppc := PPc.done,
                                    trace := c.trace ++ [Ev.stP MO.release V.EARLY_DELIVERY] }) ∧
    (c.ppc = PPc.cas → c.before = V.INIT → c.state ≠ V.INIT →
      stepF c Act.p = some { c with before := c.state, ppc := PPc.chk }) ∧
    (c.ppc = PPc.cas → c.before ≠ V.INIT →
      stepF c Act.p = some { c with ppc := PPc.chk }) ∧
    (c.ppc = PPc.chk → c.before = V.TIMED_OUT →
      stepF c Act.p = some { c with ppc := PPc.done }) ∧
    (c.ppc = PPc.chk → c.before ≠ V.TIMED_OUT →
      stepF c Act.p = some { c with ppc := PPc.stLate }) ∧
    (c.ppc = PPc.stLate →
      stepF c Act.p = some { c with state := V.LATE_DELIVERY, ppc := PPc.wake,
                                    trace := c.trace ++ [Ev.stP MO.release V.LATE_DELIVERY] }) ∧
    (c.ppc = PPc.wake →
      stepF c Act.p = some { c with ppc := PPc.done, trace := c.trace ++ [Ev.wakeP] }) ∧
    (c.ppc = PPc.done → stepF c Act.p = none) ∧
    (∀ c', stepF c Act.p = some c' → c'.ret = c.ret ∧ c'.cpc = c.cpc) ∧
    (∀ c', stepF c Act.p = some c' → c'.ppc = PPc.wake → c.ppc = PPc.stLate) := by
  refine ⟨?_, ?_, ?_, ?_, ?_, ?_, ?_, ?_, ?_, ?_, ?_⟩
  · intro hp
    simp [stepF, pstep, hp]
  · intro hp hb hs
    simp [stepF, pstep, hp, hb, hs]
  · intro hp hb hs
    simp [stepF, pstep, hp, hb, hs]
  · intro hp hb
    simp [stepF, pstep, hp, hb]
  · intro hp hb
    simp [stepF, pstep, hp, hb]
  · intro hp hb
    simp [stepF, pstep, hp, hb]
  · intro hp
    simp [stepF, pstep, hp]
  · intro hp
    simp [stepF, pstep, hp]
  · intro hp
    simp [stepF, pstep, hp]
  · intro c' h
    simp only [stepF, pstep] at h
    repeat' split at h
    all_goals
      first
      | exact Option.noConfusion h
      | (injection h with h; subst h; exact ⟨rfl, rfl⟩)
  · intro c' h
    simp only [stepF, pstep] at h
    repeat' split at h
    all_goals
      first
      | exact Option.noConfusion h
      | (injection h with h; subst h; intro hx;
         first
         | assumption
         | (simp at hx))

theorem baton_c3_post_cases_witness :
    stepF c3cfg Act.p = some { c3cfg with ppc := PPc.done } :=
  (baton_c3_post_cases c3cfg).2.2.2.2.1 rfl rfl

/-- C4: with MayBlock = false, no reachable configuration of any run ever
has WAITING in `state_`, no consumer store to `state_` is ever recorded,
no futexWake is ever issued, and the consumer never reaches the CAS, the
park, the post-park re-load or the TIMED_OUT store: only the spin and
yield polls occur. -/
theorem baton_c4_nonblocking_no_park (dlM : Bool) (opt : WaitOptions) (as : List Act)
    (c : Cfg) (h : run (initC false dlM opt) as = some c) :
    c.state ≠ V.WAITING ∧ (∀ m v, Ev.stC m v ∉ c.trace) ∧ Ev.wakeP ∉ c.trace ∧
    c.cpc ≠ CPc.cas ∧ c.cpc ≠ CPc.park ∧ c.cpc ≠ CPc.after ∧ c.cpc ≠ CPc.timedStore := by
  have hI := inv_run (inv_init false dlM opt) h
  have hmb : c.mayBlock = false := (run_fixed h).1
  obtain ⟨h1, h2, h3, h4, h5⟩ := hI.nb hmb
  refine ⟨?_, h4, h5, ?_, ?_, ?_, ?_⟩
  · intro hw
    rcases h3 with h' | h' <;> rw [hw] at h' <;> exact V.noConfusion h'
  · intro hx
    rcases h2 with h' | h' | h' | h' | h' | h' <;> rw [hx] at h' <;> exact CPc.noConfusion h'
  · intro hx
    rcases h2 with h' | h' | h' | h' | h' | h' <;> rw [hx] at h' <;> exact CPc.noConfusion h'
  · intro hx
    rcases h2 with h' | h' | h' | h' | h' | h' <;> rw [hx] at h' <;> exact CPc.noConfusion h'
  · intro hx
    rcases h2 with h' | h' | h' | h' | h' | h' <;> rw [hx] at h' <;> exact CPc.noConfusion h'

theorem baton_c4_nonblocking_no_park_witness :
    c4cfg.state ≠ V.WAITING ∧ c4cfg.cpc ≠ CPc.park :=
  ⟨(baton_c4_nonblocking_no_park false wait_options [Act.p] c4cfg rfl).1,
   (baton_c4_nonblocking_no_park false wait_options [Act.p] c4cfg rfl).2.2.2.2.1⟩

/-- C5: once the consumer has entered WAITING and is at a park, the state
is WAITING or LATE_DELIVERY; if the park reports timeout (possible only
for a non-maximal deadline) the consumer stores TIMED_OUT with relaxed
order and returns failure; if the park returns for any other reason the
consumer re-loads `state_` with acquire order and returns success exactly
when the value is LATE_DELIVERY, otherwise (still WAITING) it parks
again - a wake report alone never produces success. -/
theorem baton_c5_park_loop (c : Cfg) (hR : Reach c) (hp : c.cpc = CPc.park) :
    (c.state = V.WAITING ∨ c.state = V.LATE_DELIVERY) ∧
    (c.dlMax = false →
      run c [Act.parkTimeout, Act.timedStoreStep] =
        some { c with state := V.TIMED_OUT, cpc := CPc.failDone, ret := some false,
                      trace := c.trace ++ [Ev.stC MO.relaxed V.TIMED_OUT] }) ∧
    stepF c Act.parkWake = some { c with cpc := CPc.after } ∧
    run c [Act.parkWake, Act.afterLoad] =
      some (if c.state = V.LATE_DELIVERY then
              { c with cpc := CPc.succR, trace := c.trace ++ [Ev.ldC MO.acquire c.state] }
            else
              { c with cpc := CPc.park, trace := c.trace ++ [Ev.ldC MO.acquire c.state] }) := by
  have hI := reach_inv hR
  refine ⟨hI.park (Or.inl hp), ?_, ?_, ?_⟩
  · intro hdl
    simp [run, stepF, hp, hdl]
  · simp [stepF, hp]
  · by_cases hs : c.state = V.LATE_DELIVERY <;> simp [run, stepF, hp, hs]

theorem baton_c5_park_loop_witness :
    c5cfg.state = V.WAITING ∨ c5cfg.state = V.LATE_DELIVERY :=
  (baton_c5_park_loop c5cfg ⟨true, false, wait_options, c5sched, rfl⟩ rfl).1

/-- C6: in the blocking slow path, if the consumer's INIT -> WAITING CAS
finds the state not INIT, then under the one-post/one-wait lifecycle the
observed value is necessarily EARLY_DELIVERY (the assertion of Baton.h
line 371 cannot fire), the failing CAS records an acquire load of it, and
the wait-family call returns success. -/
theorem baton_c6_cas_fail_early (c : Cfg) (hR : Reach c) (hc : c.cpc = CPc.cas)
    (hne : c.state ≠ V.INIT) :
    c.state = V.EARLY_DELIVERY ∧
    run c [Act.casStep, Act.readPayload] =
      some { c with cpc := CPc.succ, ret := some true,
                    trace := c.trace ++ [Ev.ldC MO.acquire V.EARLY_DELIVERY, Ev.rdC c.payload] } := by
  have hI := reach_inv hR
  have hE : c.state = V.EARLY_DELIVERY := by
    rcases (hI.pre (Or.inr (Or.inr (Or.inr hc)))).1 with h' | h'
    · exact absurd h' hne
    · exact h'
  refine ⟨hE, ?_⟩
  simp [run, stepF, hc, hne, hE, List.append_assoc]

theorem baton_c6_cas_fail_early_witness :
    c6cfg.state = V.EARLY_DELIVERY :=
  (baton_c6_cas_fail_early c6cfg ⟨true, false, wait_options, c6sched, rfl⟩ rfl
    (by simp [c6cfg])).1

/-- C7: if a bounded wait (non-maximal deadline, so also one whose
deadline is already in the past) is still spinning on INIT when the spin
helper reports timeout, the call returns false with `state_` and the
trace unchanged - WAITING is never published - and on every continuation
of the lifetime the consumer never stores anything, the state never
becomes WAITING or LATE_DELIVERY, and no futexWake is ever issued: no
late delivery or wake is owed to a later post. -/
theorem baton_c7_spin_timeout_frame (mb : Bool) (opt : WaitOptions) (as : List Act)
    (c : Cfg) (h : try_wait_for_run mb opt as = some c) (hc : c.cpc = CPc.spin)
    (hs : c.state = V.INIT) :
    stepF c Act.spinTimeout = some { c with cpc := CPc.failDone, ret := some false } ∧
    ∀ bs d, run { c with cpc := CPc.failDone, ret := some false } bs = some d →
      d.ret = some false ∧ d.state ≠ V.WAITING ∧ d.state ≠ V.LATE_DELIVERY ∧
      Ev.wakeP ∉ d.trace ∧ ∀ m v, Ev.stC m v ∉ d.trace := by
  have hI := inv_run (inv_init mb false opt) h
  have hdl : c.dlMax = false := (run_fixed h).2
  constructor
  · simp [stepF, hc, hdl]
  · intro bs d hrun
    obtain ⟨q1, q2, q3, q4, q5, q6, q7, q8, q9, q10⟩ := kinv_run (kinv_entry hI hc hs) hrun
    have hst : d.state = V.INIT ∨ d.state = V.EARLY_DELIVERY := by
      cases hpp : d.ppc
      · exact Or.inl (q3 (Or.inl hpp))
      · exact Or.inl (q3 (Or.inr (Or.inl hpp)))
      · exact Or.inl (q3 (Or.inr (Or.inr hpp)))
      · exact Or.inl (q4 hpp).1
      · exact absurd hpp q6
      · exact absurd hpp q7
      · exact absurd hpp q8
      · exact q5 hpp
    refine ⟨q2, ?_, ?_, q9, q10⟩
    · intro hw
      rcases hst with h' | h' <;> rw [hw] at h' <;> exact V.noConfusion h'
    · intro hw
      rcases hst with h' | h' <;> rw [hw] at h' <;> exact V.noConfusion h'

theorem baton_c7_spin_timeout_frame_witness :
    stepF c7cfg Act.spinTimeout =
      some { c7cfg with cpc := CPc.failDone, ret := some false } :=
  (baton_c7_spin_timeout_frame true wait_options [Act.fastStep] c7cfg rfl rfl rfl).1

/-- C8, counterexample: post() called after a bounded wait already timed
out completes (producer program reaches done) in a legal one-post,
one-wait lifetime, yet ready() is false afterwards - refuting "after any
post() call ready() returns true, idempotently and forever". -/
theorem baton_c8_counterexample :
    (run (initC true false wait_options) c8sched).map
        (fun c => (c.ppc, ready c.state, c.cpc)) =
      some (PPc.done, false, CPc.failDone) :=
  rfl

/-- C8, amended: within one lifetime ready() returns false before any
wait or post has occurred, and at every reachable point after post() has
returned, either ready() returns true or the lifetime's wait has recorded
TIMED_OUT (the post was dropped after the timeout, or overwritten by the
racing timeout store); in particular in any lifetime whose wait never
times out, ready() is true forever after post(). -/
theorem baton_c8_ready_amended (c : Cfg) (hR : Reach c) :
    (c.ppc = PPc.wr → c.cpc = CPc.fast → c.state = V.INIT ∧ ready c.state = false) ∧
    (c.ppc = PPc.done → ready c.state = true ∨ c.state = V.TIMED_OUT) := by
  have hI := reach_inv hR
  constructor
  · intro hpw hcf
    have hsI : c.state = V.INIT := by
      rcases (hI.pre (Or.inl hcf)).1 with h' | h'
      · exact h'
      · exact absurd h' (hI.noSt (Or.inl hpw)).1
    exact ⟨hsI, by simp [hsI, ready]⟩
  · intro hpd
    rcases hI.pdone hpd with h' | h' | h'
    · exact Or.inl (by simp [h', ready])
    · exact Or.inl (by simp [h', ready])
    · exact Or.inr h'

theorem baton_c8_ready_amended_witness :
    (initC true true wait_options).state = V.INIT ∧
    ready (initC true true wait_options).state = false :=
  (baton_c8_ready_amended (initC true true wait_options)
    ⟨true, true, wait_options, [], rfl⟩).1 rfl rfl

/-- C9: wait() passes the maximal time point to the slow path (so runs of
`waitRun` have `dlMax = true`), under which the spin helper and the park
facility never report timeout - all three timeout actions are disabled -
so wait() never reaches the TIMED_OUT store, never stores TIMED_OUT,
never returns failure, and the assertion that the deadline is non-maximal
in the timeout branch (Baton.h line 380) cannot fire; a success return
carries the release/acquire pairing, i.e. happens only after the baton
was posted. -/
theorem baton_c9_wait_infinite (mb : Bool) (opt : WaitOptions) (as : List Act) (c : Cfg)
    (h : waitRun mb opt as = some c) :
    c.cpc ≠ CPc.timedStore ∧ c.cpc ≠ CPc.failDone ∧ c.ret ≠ some false ∧
    c.state ≠ V.TIMED_OUT ∧ Ev.stC MO.relaxed V.TIMED_OUT ∉ c.trace ∧
    stepF c Act.spinTimeout = none ∧ stepF c Act.yieldTimeout = none ∧
    stepF c Act.parkTimeout = none ∧
    (c.ret = some true → Pairing c.trace) := by
  have hI := inv_run (inv_init mb true opt) h
  have hdl : c.dlMax = true := (run_fixed h).2
  obtain ⟨d1, d2, d3, d4⟩ := hI.dlm hdl
  refine ⟨d1, d2, ?_, d3, d4, ?_, ?_, ?_, ?_⟩
  · intro hr
    exact absurd (ret_false_failDone hI hr) d2
  · by_cases hcs : c.cpc = CPc.spin <;> simp [stepF, hdl, hcs]
  · by_cases hcs : c.cpc = CPc.yield <;> simp [stepF, hdl, hcs]
  · by_cases hcs : c.cpc = CPc.park <;> simp [stepF, hdl, hcs]
  · intro hr
    exact (hI.succP (Or.inr (ret_true_succ hI hr))).2

theorem baton_c9_wait_infinite_witness :
    (initC true true wait_options).cpc ≠ CPc.timedStore ∧
    (initC true true wait_options).ret ≠ some false :=
  ⟨(baton_c9_wait_infinite true wait_options [] (initC true true wait_options) rfl).1,
   (baton_c9_wait_infinite true wait_options [] (initC true true wait_options) rfl).2.2.1⟩

/-- C10: the deprecated timed_wait(duration) is definitionally the same
operation as try_wait_for(duration) with the default wait options, and
timed_wait(deadline) is the same as try_wait_until(deadline) with the
default wait options: on every schedule they produce identical runs,
hence identical results and identical state transitions. -/
theorem baton_c10_timed_wait_alias (mb dlM : Bool) (as : List Act) :
    timed_wait_for_run mb as = try_wait_for_run mb wait_options as ∧
    timed_wait_until_run mb dlM as = try_wait_until_run mb dlM wait_options as :=
  ⟨rfl, rfl⟩

end Baton
